import Mathlib

/-!
Verification of the Git Gladiators statistics-aggregation and scoring pipeline.

The development shallowly embeds the pipeline of `src/background.js` and
`src/popup.js`:

* `buildContributorMap` — the merge of the two contributor data sources
  (`fetchContributorStats`, background.js lines 205-246), with JS `Map`
  semantics modelled by an association list (`mapSet`/`mapGet`/`mapHas`).
* `needsDiffStats` — the diff-backfill qualification predicate
  (background.js lines 248-254).
* `getWeekStartTimestamp`, `buildWeekMap`, `fillWeeks`, `fillDiffStats` —
  the commit-sample backfill (background.js lines 157-162 and 274-332).
  A JS `Date` is modelled by its millisecond timestamp; `setUTCHours(0,0,0,0)`
  is flooring to the UTC day start and `setUTCDate(getUTCDate()-getUTCDay())`
  subtracts the day-of-week (days since the epoch + 4, modulo 7) in days.
* `getPeriodCutoff`, `processContributors` — period aggregation, scoring,
  classification and ranking (popup.js lines 101-157).
* `calculateScore` (popup.js lines 162-179) over exact reals, with
  `Math.log10` as `Real.logb 10` and `Math.round` as `round` (half-up).
* `assignTitle` (popup.js lines 184-201), with the float ratio comparisons
  over `ℚ`.

Network fetches are modelled by their already-classified outcomes
(`Option`-shaped inputs), following the repository's handling: a source that
is absent or not an array contributes nothing, a failed fetch is a `none`.
-/

/-- One GitHub weekly bucket `{ w, a, d, c }` as consumed by the pipeline:
week-start unix seconds, additions, deletions, commits. -/
structure Week where
  w : Int
  a : Nat
  d : Nat
  c : Nat
deriving DecidableEq, Repr

/-- One element of the detailed `stats/contributors` response (source list A).
`login` is `none` when `stat.author?.login` is missing or falsy; `weeks` is
`none` when the `weeks` field is absent (`stat.weeks || []`). -/
structure StatEntry where
  login : Option String
  avatarUrl : Option String
  htmlUrl : Option String
  weeks : Option (List Week)
deriving DecidableEq, Repr

/-- One element of the `contributors?per_page=100` summary response
(source list B). `contributions` is `none` when the field is absent
(`c.contributions || 0`). -/
structure ListEntry where
  login : Option String
  avatarUrl : Option String
  htmlUrl : Option String
  contributions : Option Nat
deriving DecidableEq, Repr

/-- The merged contributor record built by `fetchContributorStats`.
`totalCommits` is the optional fallback commit count, present only on
records that came from the summary list. -/
structure Contributor where
  login : String
  avatar : String
  profileUrl : String
  weeks : List Week
  totalCommits : Option Nat
deriving DecidableEq, Repr

/-- JS `Map.has`, for a `Map` modelled as an insertion-ordered association
list. -/
def mapHas {κ β : Type} [DecidableEq κ] (m : List (κ × β)) (k : κ) : Bool :=
  m.any (fun p => p.1 = k)

/-- JS `Map.set`: overwrite in place when the key is present, append
otherwise. -/
def mapSet {κ β : Type} [DecidableEq κ] (m : List (κ × β)) (k : κ) (v : β) :
    List (κ × β) :=
  if mapHas m k then m.map (fun p => if p.1 = k then (k, v) else p)
  else m ++ [(k, v)]

/-- JS `Map.get` (keys of a JS `Map` are unique, so the first binding is the
binding). -/
def mapGet {κ β : Type} [DecidableEq κ] (m : List (κ × β)) (k : κ) :
    Option β :=
  (m.find? (fun p => p.1 = k)).map (·.2)

/-- The record inserted for a stats-source entry (background.js lines
216-221). -/
def statRecord (s : StatEntry) (login : String) : Contributor :=
  { login := login
    avatar := s.avatarUrl.getD ""
    profileUrl := s.htmlUrl.getD ""
    weeks := s.weeks.getD []
    totalCommits := none }

/-- The record inserted for a summary-source entry (background.js lines
231-237). -/
def listRecord (e : ListEntry) (login : String) : Contributor :=
  { login := login
    avatar := e.avatarUrl.getD ""
    profileUrl := e.htmlUrl.getD ""
    weeks := []
    totalCommits := some (e.contributions.getD 0) }

/-- One iteration of the stats-source loop (background.js lines 212-223):
entries with no login are skipped, the rest are `Map.set` under the
lowercased login. -/
def insertStatEntry (m : List (String × Contributor)) (s : StatEntry) :
    List (String × Contributor) :=
  match s.login with
  | none => m
  | some login => mapSet m login.toLower (statRecord s login)

/-- One iteration of the summary-source loop (background.js lines 227-239):
entries with no login are skipped, the rest are inserted only when the
lowercased login is not already present. -/
def insertListEntry (m : List (String × Contributor)) (e : ListEntry) :
    List (String × Contributor) :=
  match e.login with
  | none => m
  | some login =>
      if mapHas m login.toLower then m
      else mapSet m login.toLower (listRecord e login)

/-- The contributor map built by `fetchContributorStats` (background.js lines
209-240) from the two sources.  A source that is absent or not an array
(`Array.isArray` fails) is `none` and contributes nothing. -/
def buildContributorMap (statsData : Option (List StatEntry))
    (listData : Option (List ListEntry)) : List (String × Contributor) :=
  let m := match statsData with
    | some l => l.foldl insertStatEntry []
    | none => []
  match listData with
  | some l => l.foldl insertListEntry m
  | none => m

/-- The unified contributor list: `Array.from(contributorMap.values())`
(background.js line 246). -/
def mergedContributors (statsData : Option (List StatEntry))
    (listData : Option (List ListEntry)) : List Contributor :=
  (buildContributorMap statsData listData).map (·.2)

/-- Lowercased-login key of a stats-source entry, `none` when the entry has
no login. -/
def statKey (s : StatEntry) : Option String :=
  s.login.map String.toLower

/-- Lowercased-login key of a summary-source entry. -/
def listKey (e : ListEntry) : Option String :=
  e.login.map String.toLower

/-- Modelled from the spec (§4.1): the merge result looked up by key.  A key
resolves to the stats-source record when some A entry carries it, else to the
first summary-source record carrying it, else to nothing. -/
def mergedLookupSpec (statsData : List StatEntry) (listData : List ListEntry)
    (k : String) : Option Contributor :=
  match statsData.find? (fun s => statKey s = some k) with
  | some s => some (statRecord s (s.login.getD ""))
  | none =>
      match listData.find? (fun e => listKey e = some k) with
      | some e => some (listRecord e (e.login.getD ""))
      | none => none

/-- Sum of the weekly commit counters of a contributor, as the JS reduce
`c.weeks.reduce((sum, w) => sum + (w.c || 0), 0)`. -/
def sumWeekCommits (c : Contributor) : Nat :=
  c.weeks.foldl (fun sum w => sum + w.c) 0

/-- Sum of the weekly additions (`w.a || 0`). -/
def sumWeekAdditions (c : Contributor) : Nat :=
  c.weeks.foldl (fun sum w => sum + w.a) 0

/-- Sum of the weekly deletions (`w.d || 0`). -/
def sumWeekDeletions (c : Contributor) : Nat :=
  c.weeks.foldl (fun sum w => sum + w.d) 0

/-- The diff-backfill qualification predicate (background.js lines 249-254).
`totalCommits` is the JS truthiness chain
`weeks.reduce(...) || c.totalCommits || 0`: a zero weekly sum falls back to
the summary count. -/
def needsDiffStats (c : Contributor) : Bool :=
  let totalCommits :=
    if sumWeekCommits c ≠ 0 then sumWeekCommits c else c.totalCommits.getD 0
  let totalAdd := sumWeekAdditions c
  let totalDel := sumWeekDeletions c
  decide (totalCommits > 0) && decide (totalAdd = 0) && decide (totalDel = 0)

/-- Diff stats of one commit detail (`detail.stats`); a `none` field models a
missing `additions`/`deletions` (read as `|| 0`). -/
structure CommitStats where
  additions : Option Nat
  deletions : Option Nat
deriving DecidableEq, Repr

/-- One commit-detail response.  `stats` is `none` when `detail.stats` is
missing; `date` is the millisecond timestamp of `detail.commit.author.date`,
`none` when that path is missing. -/
structure CommitDetail where
  stats : Option CommitStats
  date : Option Int
deriving DecidableEq, Repr

/-- Embedding of `getWeekStartTimestamp` (background.js lines 157-162) on a
millisecond timestamp `t`: `setUTCHours(0,0,0,0)` floors to the UTC day
start, `getUTCDay()` of that day number `n` is `(n + 4) % 7` (the Unix epoch
day was a Thursday), `setUTCDate(getUTCDate() - day)` subtracts `day` days,
and `Math.floor(getTime() / 1000)` converts to whole seconds.  Lean's `Int`
`/` and `%` are Euclidean, which for these positive divisors agree with the
flooring the `Date` setters perform. -/
def getWeekStartTimestamp (t : Int) : Int :=
  let dayStart := 86400000 * (t / 86400000)
  let day := (t / 86400000 + 4) % 7
  (dayStart - day * 86400000) / 1000

/-- One iteration of the week-aggregation loop of `fillDiffStats`
(background.js lines 301-312): skip a failed fetch or a detail without both
a diff-stat and an authored date; otherwise ensure a zeroed bucket for the
commit's week key exists and accumulate into it. -/
def addDetail (m : List (Int × Week)) (det : Option CommitDetail) :
    List (Int × Week) :=
  match det with
  | none => m
  | some detail =>
      match detail.stats, detail.date with
      | some st, some date =>
          let weekStart := getWeekStartTimestamp date
          let m1 := if mapHas m weekStart then m
                    else m ++ [(weekStart, ⟨weekStart, 0, 0, 0⟩)]
          m1.map (fun p =>
            if p.1 = weekStart then
              (weekStart, { p.2 with
                              a := p.2.a + st.additions.getD 0
                              d := p.2.d + st.deletions.getD 0
                              c := p.2.c + 1 })
            else p)
      | _, _ => m

/-- The per-week aggregate `weekMap` of `fillDiffStats` (background.js lines
300-312). -/
def buildWeekMap (details : List (Option CommitDetail)) : List (Int × Week) :=
  details.foldl addDetail []

/-- One iteration of the merge loop of `fillDiffStats` (background.js lines
319-327): overwrite the additions/deletions of the first bucket with the
same week key, leaving its commit counter, or push the new bucket at the
end. -/
def applyWeekEntry (weeks : List Week) (kv : Int × Week) : List Week :=
  match weeks with
  | [] => [kv.2]
  | wk :: rest =>
      if wk.w = kv.1 then { wk with a := kv.2.a, d := kv.2.d } :: rest
      else wk :: applyWeekEntry rest kv

/-- The merge step of `fillDiffStats` (background.js lines 314-328): an empty
week set is replaced wholly by the new buckets, otherwise the buckets are
merged one by one. -/
def fillWeeks (weeks : List Week) (wm : List (Int × Week)) : List Week :=
  if weeks.isEmpty then wm.map (·.2)
  else wm.foldl applyWeekEntry weeks

/-- Outcome of the network activity of one contributor's backfill job:
whether the commit-list fetch threw, whether its response was ok, its parsed
body (`none` when not an array), and the per-sha commit-detail outcome
(`none` models a failed or non-ok detail fetch). -/
structure BackfillEnv where
  thrown : Bool
  commitsOk : Bool
  commits : Option (List String)
  detailFor : String → Option CommitDetail

/-- The whole of `fillDiffStats` (background.js lines 274-332) for one
contributor under a fixed fetch outcome: every failure path returns with the
contributor untouched; otherwise at most the first 10 commits are detailed
and the week set is rebuilt or merged. -/
def fillDiffStats (env : BackfillEnv) (contributor : Contributor) :
    Contributor :=
  if env.thrown then contributor
  else if env.commitsOk = false then contributor
  else
    match env.commits with
    | none => contributor
    | some commits =>
        if commits.isEmpty then contributor
        else
          let details := (commits.take 10).map env.detailFor
          let weekMap := buildWeekMap details
          { contributor with weeks := fillWeeks contributor.weeks weekMap }

/-- The backfill batch of `fetchContributorStats` (background.js lines
248-261): each qualifying contributor is backfilled from its own fetch
outcomes, the rest pass through. -/
def backfillAll (envOf : String → BackfillEnv)
    (contributors : List Contributor) : List Contributor :=
  contributors.map (fun c =>
    if needsDiffStats c then fillDiffStats (envOf c.login) c else c)

/-- Modelled from the spec (§4.2 step 3): the successfully fetched details
with both a diff-stat and an authored date, reduced to
(week key, additions, deletions) triples. -/
def validDetails (details : List (Option CommitDetail)) :
    List (Int × Nat × Nat) :=
  details.filterMap (fun det =>
    match det with
    | some detail =>
        match detail.stats, detail.date with
        | some st, some date =>
            some (getWeekStartTimestamp date,
                  st.additions.getD 0, st.deletions.getD 0)
        | _, _ => none
    | none => none)

/-- Modelled from the spec (§4.2 step 3): the per-week aggregate looked up at
week key `k` — the sums of additions and deletions and the count of the
valid details falling in that week, or nothing when no valid detail does. -/
def weekAggSpec (details : List (Option CommitDetail)) (k : Int) :
    Option Week :=
  let l := (validDetails details).filter (fun tr => tr.1 = k)
  if l.isEmpty then none
  else some ⟨k, (l.map (fun tr => tr.2.1)).sum, (l.map (fun tr => tr.2.2)).sum,
             l.length⟩

/-- Accumulation of a batch of (week key, additions, deletions) triples onto
a start bucket. -/
def aggTo (start : Week) (l : List (Int × Nat × Nat)) : Week :=
  { start with
      a := start.a + (l.map (fun tr => tr.2.1)).sum
      d := start.d + (l.map (fun tr => tr.2.2)).sum
      c := start.c + l.length }

/-- Modelled from the spec (§4.2 step 4): the merge of the new buckets into a
non-empty week set — a bucket with a matching key overwrites only that
bucket's additions and deletions. -/
def updateByMap (wm : List (Int × Week)) (b : Week) : Week :=
  match mapGet wm b.w with
  | some cw => { b with a := cw.a, d := cw.d }
  | none => b

/-- Scoring configuration (popup.js lines 7-12), fixed defaults. -/
noncomputable def commitWeight : ℝ := 0.4

/-- Weight of the additions term. -/
noncomputable def additionsWeight : ℝ := 0.35

/-- Weight of the deletions term. -/
noncomputable def deletionsWeight : ℝ := 0.25

/-- Baseline of well-sized commits, in changed lines per commit. -/
noncomputable def linesPerCommitBaseline : ℝ := 50

/-- Average changed lines per commit (popup.js line 173): zero when there are
no commits. -/
noncomputable def avgLinesPerCommit (commits additions deletions : ℕ) : ℝ :=
  if 0 < commits then ((additions : ℝ) + (deletions : ℝ)) / (commits : ℝ)
  else 0

/-- The balance bonus as a function of the average (popup.js lines 174-176):
`avg > 0 && avg <= baseline * 2 ? min(10, 10 * (1 - |avg - baseline| / baseline)) : 0`. -/
noncomputable def bonusOf (avg : ℝ) : ℝ :=
  if 0 < avg ∧ avg ≤ linesPerCommitBaseline * 2 then
    min 10 (10 * (1 - |avg - linesPerCommitBaseline| / linesPerCommitBaseline))
  else 0

/-- The balance bonus computed inside `calculateScore`. -/
noncomputable def balanceBonus (commits additions deletions : ℕ) : ℝ :=
  bonusOf (avgLinesPerCommit commits additions deletions)

/-- The weighted sum plus bonus of `calculateScore` (popup.js lines 165-177),
before the one-decimal rounding.  `Math.log10` is `Real.logb 10` over exact
reals. -/
noncomputable def preScore (commits additions deletions : ℕ) : ℝ :=
  let logCommits := Real.logb 10 ((commits : ℝ) + 1) * 100
  let logAdditions := Real.logb 10 ((additions : ℝ) + 1) * 10
  let logDeletions := Real.logb 10 ((deletions : ℝ) + 1) * 10
  let commitScore := logCommits * commitWeight
  let additionScore := logAdditions * additionsWeight
  let deletionScore := logDeletions * deletionsWeight
  commitScore + additionScore + deletionScore
    + balanceBonus commits additions deletions

/-- The balanced score (popup.js lines 162-179):
`Math.round((...) * 10) / 10`, with `Math.round` the half-up rounding
`round` of Mathlib. -/
noncomputable def calculateScore (commits additions deletions : ℕ) : ℝ :=
  ((round (preScore commits additions deletions * 10) : ℤ) : ℝ) / 10

/-- Title classification (popup.js lines 184-201): the derived values and the
ordered if-chain, first match wins.  The float ratio comparisons are exact
over `ℚ`. -/
def assignTitle (commits additions deletions : ℕ) : String × String :=
  let total : ℕ := additions + deletions
  let ratio : ℚ := if 0 < commits then (total : ℚ) / (commits : ℚ) else 0
  let deleteRatio : ℚ := if 0 < total then (deletions : ℚ) / (total : ℚ) else 0
  if 500 ≤ commits then ("🏛️ Code Architect", "#FFD700")
  else if 0.6 < deleteRatio ∧ 100 < total then ("🧹 The Cleaner", "#9B59B6")
  else if 500 < ratio then ("🌊 Tsunami Coder", "#3498DB")
  else if ratio < 20 ∧ 50 < commits then ("⚡ Rapid Fire", "#E74C3C")
  else if 50000 < additions then ("📚 Novel Writer", "#2ECC71")
  else if 100 ≤ commits then ("🎖️ Veteran", "#F39C12")
  else if 50 ≤ commits then ("⚔️ Warrior", "#E67E22")
  else if 20 ≤ commits then ("🛡️ Defender", "#1ABC9C")
  else if 10 ≤ commits then ("🌱 Rising Star", "#27AE60")
  else if 1 ≤ commits then ("🆕 Fresh Blood", "#95A5A6")
  else ("💤 Inactive", "#666677")

/-- Modelled from the spec (§4.5): the derived total of a (commits,
additions, deletions) triple. -/
def totalOf (s : ℕ × ℕ × ℕ) : ℕ := s.2.1 + s.2.2

/-- Modelled from the spec (§4.5): `ratio = commits>0 ? total/commits : 0`. -/
def ratioOf (s : ℕ × ℕ × ℕ) : ℚ :=
  if 0 < s.1 then (totalOf s : ℚ) / (s.1 : ℚ) else 0

/-- Modelled from the spec (§4.5):
`deleteRatio = total>0 ? deletions/total : 0`. -/
def deleteRatioOf (s : ℕ × ℕ × ℕ) : ℚ :=
  if 0 < totalOf s then (s.2.2 : ℚ) / (totalOf s : ℚ) else 0

/-- Modelled from the spec (§4.5): the closed, ordered rule set — predicates
paired with their (title, color) results, in the spec's exact order. -/
def titleRules : List (((ℕ × ℕ × ℕ) → Bool) × (String × String)) :=
  [ (fun s => 500 ≤ s.1, ("🏛️ Code Architect", "#FFD700")),
    (fun s => decide (0.6 < deleteRatioOf s) && decide (100 < totalOf s),
      ("🧹 The Cleaner", "#9B59B6")),
    (fun s => 500 < ratioOf s, ("🌊 Tsunami Coder", "#3498DB")),
    (fun s => decide (ratioOf s < 20) && decide (50 < s.1),
      ("⚡ Rapid Fire", "#E74C3C")),
    (fun s => 50000 < s.2.1, ("📚 Novel Writer", "#2ECC71")),
    (fun s => 100 ≤ s.1, ("🎖️ Veteran", "#F39C12")),
    (fun s => 50 ≤ s.1, ("⚔️ Warrior", "#E67E22")),
    (fun s => 20 ≤ s.1, ("🛡️ Defender", "#1ABC9C")),
    (fun s => 10 ≤ s.1, ("🌱 Rising Star", "#27AE60")),
    (fun s => 1 ≤ s.1, ("🆕 Fresh Blood", "#95A5A6")) ]

/-- Modelled from the spec (§4.5): first matching rule wins, otherwise the
Inactive pair. -/
def specAssignTitle (s : ℕ × ℕ × ℕ) : String × String :=
  ((titleRules.find? (fun r => r.1 s)).map (·.2)).getD ("💤 Inactive", "#666677")

/-- The period cutoff in epoch milliseconds (popup.js lines 101-113), with
`now = Date.now()` passed explicitly; an unknown period (the `all` tab) takes
the default branch. -/
def getPeriodCutoff (period : String) (now : Int) : Int :=
  let weekMs : Int := 7 * 24 * 60 * 60 * 1000
  if period = "week" then now - weekMs
  else if period = "month" then now - 4 * weekMs
  else 0

/-- One row of the leaderboard before rank assignment (popup.js lines
133-142). -/
structure ScoredEntry where
  login : String
  avatar : String
  profileUrl : String
  commits : Nat
  additions : Nat
  deletions : Nat
  score : ℝ
  title : String
  color : String

/-- The per-contributor aggregation step of `processContributors` (popup.js
lines 121-143): filter weeks by the cutoff (in fractional unix seconds,
`getPeriodCutoff(period) / 1000`), sum the three counters, score and title
the totals. -/
noncomputable def periodEntry (cutoffTimestamp : ℚ) (contributor : Contributor) :
    ScoredEntry :=
  let relevantWeeks :=
    contributor.weeks.filter (fun week => cutoffTimestamp ≤ (week.w : ℚ))
  let commits := relevantWeeks.foldl (fun sum week => sum + week.c) 0
  let additions := relevantWeeks.foldl (fun sum week => sum + week.a) 0
  let deletions := relevantWeeks.foldl (fun sum week => sum + week.d) 0
  let score := calculateScore commits additions deletions
  let titleInfo := assignTitle commits additions deletions
  { login := contributor.login
    avatar := contributor.avatar
    profileUrl := contributor.profileUrl
    commits := commits
    additions := additions
    deletions := deletions
    score := score
    title := titleInfo.1
    color := titleInfo.2 }

/-- The sort of `processContributors` (popup.js line 149):
`active.sort((a, b) => b.score - a.score)` — JS `Array.prototype.sort` is
stable, and a stable sort for the total preorder "greater or equal score" is
extensionally the insertion sort below. -/
noncomputable def sortByScoreDesc (l : List ScoredEntry) : List ScoredEntry :=
  List.insertionSort (fun a b => b.score ≤ a.score) l

/-- The rank assignment of `processContributors` (popup.js lines 152-154):
`rank = index + 1` down the sorted list. -/
def rankEntries (l : List ScoredEntry) : List (ScoredEntry × ℕ) :=
  l.enum.map (fun p => (p.2, p.1 + 1))

/-- The whole of `processContributors` (popup.js lines 118-157): aggregate
per contributor, drop the inactive, sort by score descending, assign ranks. -/
noncomputable def processContributors (contributors : List Contributor)
    (period : String) (now : Int) : List (ScoredEntry × ℕ) :=
  let cutoffTimestamp : ℚ := ((getPeriodCutoff period now : ℤ) : ℚ) / 1000
  let processed := contributors.map (periodEntry cutoffTimestamp)
  let active := processed.filter (fun c =>
    decide (0 < c.commits) || decide (0 < c.additions) || decide (0 < c.deletions))
  rankEntries (sortByScoreDesc active)

/-- Modelled from the spec (§4.3): the period totals of one contributor — the
sums of commits, additions and deletions over exactly the week buckets with
`weekStart ≥ cutoff` — scored and titled. -/
noncomputable def periodEntrySpec (cutoffSec : ℚ) (c : Contributor) :
    ScoredEntry :=
  let fweeks := c.weeks.filter (fun wk => cutoffSec ≤ (wk.w : ℚ))
  { login := c.login
    avatar := c.avatar
    profileUrl := c.profileUrl
    commits := (fweeks.map Week.c).sum
    additions := (fweeks.map Week.a).sum
    deletions := (fweeks.map Week.d).sum
    score := calculateScore ((fweeks.map Week.c).sum) ((fweeks.map Week.a).sum)
      ((fweeks.map Week.d).sum)
    title := (assignTitle ((fweeks.map Week.c).sum) ((fweeks.map Week.a).sum)
      ((fweeks.map Week.d).sum)).1
    color := (assignTitle ((fweeks.map Week.c).sum) ((fweeks.map Week.a).sum)
      ((fweeks.map Week.d).sum)).2 }

/-- State-passing form of the per-contributor step of `processContributors`:
the callback of `contributors.map` only reads the contributor's fields and
assembles a fresh entry object, so the post-state of the record lists every
field as it was read. -/
noncomputable def periodEntrySt (cutoffTimestamp : ℚ)
    (contributor : Contributor) : Contributor × ScoredEntry :=
  ({ login := contributor.login
     avatar := contributor.avatar
     profileUrl := contributor.profileUrl
     weeks := contributor.weeks
     totalCommits := contributor.totalCommits },
   periodEntry cutoffTimestamp contributor)

/-- State-passing form of `processContributors`: first component is the input
contributor list after the call (the rank mutation of popup.js lines 152-154
targets the fresh entry objects, modelled by the pairing in `rankEntries`);
second component is the returned leaderboard. -/
noncomputable def processContributorsSt (contributors : List Contributor)
    (period : String) (now : Int) :
    List Contributor × List (ScoredEntry × ℕ) :=
  let cutoffTimestamp : ℚ := ((getPeriodCutoff period now : ℤ) : ℚ) / 1000
  let stepped := contributors.map (periodEntrySt cutoffTimestamp)
  let processed := stepped.map Prod.snd
  let active := processed.filter (fun c =>
    decide (0 < c.commits) || decide (0 < c.additions) || decide (0 < c.deletions))
  (stepped.map Prod.fst, rankEntries (sortByScoreDesc active))

theorem mapGet_nil {κ β : Type} [DecidableEq κ] (k : κ) :
    mapGet ([] : List (κ × β)) k = none := rfl

theorem mapHas_iff_isSome {κ β : Type} [DecidableEq κ]
    (m : List (κ × β)) (k : κ) :
    mapHas m k = true ↔ (mapGet m k).isSome := by
  induction m with
  | nil => simp [mapHas, mapGet]
  | cons p m ih =>
      by_cases h : p.1 = k
      · simp [mapHas, mapGet, List.find?, h]
      · simp only [mapHas, mapGet, List.find?] at ih ⊢
        rw [List.any_cons, decide_eq_false h]
        simp only [Bool.false_or]
        exact ih.trans (by simp)

theorem mapGet_eq_none_of_not_has {κ β : Type} [DecidableEq κ]
    {m : List (κ × β)} {k : κ} (h : mapHas m k = false) :
    mapGet m k = none := by
  cases hg : mapGet m k with
  | none => rfl
  | some v =>
      have := (mapHas_iff_isSome m k).2 (by simp [hg])
      rw [this] at h
      exact absurd h (by simp)

theorem mapGet_map_update_self {κ β : Type} [DecidableEq κ]
    {m : List (κ × β)} {k : κ} (v : β) (h : mapHas m k = true) :
    mapGet (m.map (fun p => if p.1 = k then (k, v) else p)) k = some v := by
  induction m with
  | nil => simp [mapHas] at h
  | cons p m ih =>
      by_cases hp : p.1 = k
      · simp [mapGet, List.find?_cons, hp]
      · have hm : mapHas m k = true := by
          simpa [mapHas, List.any_cons, hp] using h
        simpa [mapGet, List.find?_cons, hp] using ih hm

theorem mapGet_map_update_ne {κ β : Type} [DecidableEq κ]
    (m : List (κ × β)) (k k' : κ) (v : β) (hne : k' ≠ k) :
    mapGet (m.map (fun p => if p.1 = k then (k, v) else p)) k' = mapGet m k' := by
  induction m with
  | nil => simp [mapGet]
  | cons p m ih =>
      by_cases hp : p.1 = k
      · have h1 : ¬ (k = k') := fun hh => hne hh.symm
        have h2 : ¬ (p.1 = k') := by rw [hp]; exact h1
        simpa [mapGet, List.find?_cons, hp, h1, h2] using ih
      · by_cases hp' : p.1 = k'
        · simp [mapGet, List.find?_cons, hp, hp', hne]
        · simpa [mapGet, List.find?_cons, hp, hp'] using ih

theorem mapGet_set_self {κ β : Type} [DecidableEq κ]
    (m : List (κ × β)) (k : κ) (v : β) :
    mapGet (mapSet m k v) k = some v := by
  unfold mapSet
  by_cases h : mapHas m k
  · simpa [h] using mapGet_map_update_self v h
  · simp only [h, Bool.false_eq_true, if_false]
    rw [mapGet, List.find?_append]
    have := mapGet_eq_none_of_not_has (m := m) (k := k) (by simpa using h)
    rw [mapGet] at this
    rcases Option.map_eq_none.1 this with hf
    simp [hf, List.find?_cons]

theorem mapGet_set_ne {κ β : Type} [DecidableEq κ]
    (m : List (κ × β)) (k k' : κ) (v : β) (hne : k' ≠ k) :
    mapGet (mapSet m k v) k' = mapGet m k' := by
  unfold mapSet
  by_cases h : mapHas m k
  · simpa [h] using mapGet_map_update_ne m k k' v hne
  · simp only [h, Bool.false_eq_true, if_false]
    rw [mapGet, List.find?_append]
    have h1 : ¬ (k = k') := fun hh => hne hh.symm
    cases hf : List.find? (fun p => decide (p.1 = k')) m with
    | some p => simp [mapGet, hf]
    | none => simp [mapGet, hf, List.find?_cons, h1]

theorem statsFold_get (sd : List StatEntry) (m : List (String × Contributor))
    (k : String) (hA : (sd.filterMap statKey).Nodup) :
    mapGet (sd.foldl insertStatEntry m) k =
      match sd.find? (fun s => statKey s = some k) with
      | some s => some (statRecord s (s.login.getD ""))
      | none => mapGet m k := by
  induction sd generalizing m with
  | nil => simp
  | cons s sd ih =>
      cases hl : s.login with
      | none =>
          have hkey : statKey s = none := by simp [statKey, hl]
          have hA' : (sd.filterMap statKey).Nodup := by
            simpa [List.filterMap_cons, hkey] using hA
          simp only [List.foldl_cons, insertStatEntry, hl]
          rw [ih m hA']
          simp [List.find?_cons, hkey]
      | some l =>
          have hkey : statKey s = some l.toLower := by simp [statKey, hl]
          have hA' : (sd.filterMap statKey).Nodup := by
            simp only [List.filterMap_cons, hkey] at hA
            exact hA.of_cons
          have hnotin : l.toLower ∉ sd.filterMap statKey := by
            simp only [List.filterMap_cons, hkey] at hA
            exact (List.nodup_cons.1 hA).1
          simp only [List.foldl_cons, insertStatEntry, hl]
          rw [ih _ hA']
          by_cases hk : l.toLower = k
          · subst hk
            have hnone : sd.find? (fun s => statKey s = some l.toLower) = none := by
              rw [List.find?_eq_none]
              intro x hx
              simp only [decide_eq_true_eq]
              intro hcontra
              exact hnotin (List.mem_filterMap.2 ⟨x, hx, hcontra⟩)
            rw [hnone]
            simp [List.find?_cons, hkey, mapGet_set_self, hl]
          · have hpred : ¬ (statKey s = some k) := by
              rw [hkey]; simp [hk]
            rw [List.find?_cons, decide_eq_false hpred]
            cases hf : sd.find? (fun s => statKey s = some k) with
            | some s₂ => rfl
            | none => exact mapGet_set_ne m l.toLower k _ (fun h => hk h.symm)

theorem listFold_get (ld : List ListEntry) (m : List (String × Contributor))
    (k : String) :
    mapGet (ld.foldl insertListEntry m) k =
      match mapGet m k with
      | some v => some v
      | none =>
          match ld.find? (fun e => listKey e = some k) with
          | some e => some (listRecord e (e.login.getD ""))
          | none => none := by
  induction ld generalizing m with
  | nil => cases h : mapGet m k <;> simp [h]
  | cons e ld ih =>
      cases hl : e.login with
      | none =>
          have hkey : listKey e = none := by simp [listKey, hl]
          simp only [List.foldl_cons, insertListEntry, hl]
          rw [ih m]
          simp [List.find?_cons, hkey]
      | some l =>
          have hkey : listKey e = some l.toLower := by simp [listKey, hl]
          simp only [List.foldl_cons, insertListEntry, hl]
          by_cases hhas : mapHas m l.toLower
          · simp only [hhas, if_true]
            rw [ih m]
            by_cases hk : l.toLower = k
            · subst hk
              have : (mapGet m l.toLower).isSome :=
                (mapHas_iff_isSome m l.toLower).1 hhas
              cases hg : mapGet m l.toLower with
              | none => rw [hg] at this; simp at this
              | some v => simp [hg]
            · have hpred : ¬ (listKey e = some k) := by
                rw [hkey]; simp [hk]
              cases hg : mapGet m k with
              | some v => simp [hg]
              | none => simp [hg, List.find?_cons, hpred]
          · simp only [hhas, Bool.false_eq_true, if_false]
            rw [ih _]
            by_cases hk : l.toLower = k
            · subst hk
              have hgm : mapGet m l.toLower = none :=
                mapGet_eq_none_of_not_has (by simpa using hhas)
              rw [mapGet_set_self]
              simp [hgm, List.find?_cons, hkey, hl]
            · have hpred : ¬ (listKey e = some k) := by
                rw [hkey]; simp [hk]
              rw [mapGet_set_ne m l.toLower k _ (fun h => hk h.symm)]
              cases hg : mapGet m k with
              | some v => simp [hg]
              | none => simp [hg, List.find?_cons, hpred]

/-- C2: the merge of the two contributor sources, keyed by lowercased login.
Assuming distinct (lowercased) logins within the detailed source — the data
model's identity-uniqueness — the merged map resolves every key to the
detailed-source record (with its weeks, no fallback) when one exists, else to
the first summary-source record with that key (empty weeks,
`fallbackTotalCommits = contributions`), else to nothing; and an absent or
non-list source contributes exactly what an empty list does. -/
theorem statsMerger_merge_spec (sd : List StatEntry) (ld : List ListEntry)
    (hA : (sd.filterMap statKey).Nodup) :
    (∀ k, mapGet (buildContributorMap (some sd) (some ld)) k =
        mergedLookupSpec sd ld k)
    ∧ buildContributorMap none (some ld) = buildContributorMap (some []) (some ld)
    ∧ buildContributorMap (some sd) none = buildContributorMap (some sd) (some []) := by
  refine ⟨fun k => ?_, rfl, rfl⟩
  show mapGet (ld.foldl insertListEntry (sd.foldl insertStatEntry [])) k = _
  rw [listFold_get, statsFold_get sd [] k hA]
  unfold mergedLookupSpec
  cases hf : sd.find? (fun s => statKey s = some k) with
  | some s => rfl
  | none => simp [mapGet]

/-- Witness for C2 at a concrete pair of sources: a login present in both
sources keeps the detailed data, a summary-only login gets the fallback. -/
theorem statsMerger_merge_spec_witness :
    ([StatEntry.mk (some "Alice") (some "av1") (some "u1") (some [⟨0, 1, 2, 3⟩])].filterMap statKey).Nodup
    ∧ mapGet
        (buildContributorMap
          (some [StatEntry.mk (some "Alice") (some "av1") (some "u1") (some [⟨0, 1, 2, 3⟩])])
          (some [ListEntry.mk (some "ALICE") (some "av2") (some "u2") (some 7),
                 ListEntry.mk (some "Bob") (some "av3") (some "u3") (some 5)])) "bob"
      = mergedLookupSpec
          [StatEntry.mk (some "Alice") (some "av1") (some "u1") (some [⟨0, 1, 2, 3⟩])]
          [ListEntry.mk (some "ALICE") (some "av2") (some "u2") (some 7),
           ListEntry.mk (some "Bob") (some "av3") (some "u3") (some 5)] "bob" :=
  ⟨by decide,
   (statsMerger_merge_spec
      [StatEntry.mk (some "Alice") (some "av1") (some "u1") (some [⟨0, 1, 2, 3⟩])]
      [ListEntry.mk (some "ALICE") (some "av2") (some "u2") (some 7),
       ListEntry.mk (some "Bob") (some "av3") (some "u3") (some 5)]
      (by decide)).1 "bob"⟩

theorem foldl_add_eq_sum {α : Type} (f : α → ℕ) (l : List α) (n : ℕ) :
    l.foldl (fun sum x => sum + f x) n = n + (l.map f).sum := by
  induction l generalizing n with
  | nil => simp
  | cons x l ih => simp [ih]; omega

/-- C3: a merged contributor is selected for diff backfill iff its weekly
commit sum (falling back to `fallbackTotalCommits` when that sum is zero) is
positive while its weekly addition and deletion sums are both zero. -/
theorem needsDiffStats_spec (contributors : List Contributor) (c : Contributor) :
    c ∈ contributors.filter needsDiffStats ↔
      c ∈ contributors ∧
        (0 < (if (c.weeks.map Week.c).sum = 0 then c.totalCommits.getD 0
              else (c.weeks.map Week.c).sum)
          ∧ (c.weeks.map Week.a).sum = 0 ∧ (c.weeks.map Week.d).sum = 0) := by
  rw [List.mem_filter]
  have hc : sumWeekCommits c = (c.weeks.map Week.c).sum := by
    simpa using foldl_add_eq_sum Week.c c.weeks 0
  have ha : sumWeekAdditions c = (c.weeks.map Week.a).sum := by
    simpa using foldl_add_eq_sum Week.a c.weeks 0
  have hd : sumWeekDeletions c = (c.weeks.map Week.d).sum := by
    simpa using foldl_add_eq_sum Week.d c.weeks 0
  constructor
  · rintro ⟨hmem, hpred⟩
    refine ⟨hmem, ?_⟩
    simp only [needsDiffStats, Bool.and_eq_true, decide_eq_true_eq] at hpred
    rw [hc, ha, hd] at hpred
    obtain ⟨⟨h1, h2⟩, h3⟩ := hpred
    by_cases hz : (c.weeks.map Week.c).sum = 0
    · simp only [hz, if_true] at h1 ⊢
      simp only [ne_eq, hz, not_true_eq_false, if_false] at h1
      exact ⟨h1, h2, h3⟩
    · simp only [hz, if_false] at h1 ⊢
      simp only [ne_eq, hz, not_false_eq_true, if_true] at h1
      exact ⟨h1, h2, h3⟩
  · rintro ⟨hmem, h1, h2, h3⟩
    refine ⟨hmem, ?_⟩
    simp only [needsDiffStats, Bool.and_eq_true, decide_eq_true_eq]
    rw [hc, ha, hd]
    by_cases hz : (c.weeks.map Week.c).sum = 0
    · simp only [hz, if_true] at h1
      simp only [ne_eq, hz, not_true_eq_false, if_false]
      exact ⟨⟨h1, h2⟩, h3⟩
    · simp only [hz, if_false] at h1
      simp only [ne_eq, hz, not_false_eq_true, if_true]
      exact ⟨⟨h1, h2⟩, h3⟩

theorem mapGet_map_keyfix_ne {κ β : Type} [DecidableEq κ]
    (m : List (κ × β)) (k ws : κ) (g : β → β) (hne : k ≠ ws) :
    mapGet (m.map (fun p => if p.1 = ws then (ws, g p.2) else p)) k
      = mapGet m k := by
  induction m with
  | nil => simp [mapGet]
  | cons p m ih =>
      by_cases hp : p.1 = ws
      · have h1 : ¬ (ws = k) := fun hh => hne hh.symm
        have h2 : ¬ (p.1 = k) := by rw [hp]; exact h1
        simpa [mapGet, List.find?_cons, hp, h1, h2] using ih
      · by_cases hp' : p.1 = k
        · simp [mapGet, List.find?_cons, hp, hp', hne]
        · simpa [mapGet, List.find?_cons, hp, hp'] using ih

theorem mapGet_map_keyfix_self {κ β : Type} [DecidableEq κ]
    (m : List (κ × β)) (ws : κ) (g : β → β) :
    mapGet (m.map (fun p => if p.1 = ws then (ws, g p.2) else p)) ws
      = (mapGet m ws).map g := by
  induction m with
  | nil => simp [mapGet]
  | cons p m ih =>
      by_cases hp : p.1 = ws
      · simp [mapGet, List.find?_cons, hp]
      · simpa [mapGet, List.find?_cons, hp] using ih

theorem mapGet_append_single_ne {κ β : Type} [DecidableEq κ]
    (m : List (κ × β)) (k ws : κ) (v : β) (hne : k ≠ ws) :
    mapGet (m ++ [(ws, v)]) k = mapGet m k := by
  rw [mapGet, List.find?_append]
  cases hf : List.find? (fun p => decide (p.1 = k)) m with
  | some p => simp [mapGet, hf]
  | none =>
      have h1 : ¬ (ws = k) := fun hh => hne hh.symm
      simp [mapGet, hf, List.find?_cons, h1]

theorem aggTo_nil (wk : Week) : aggTo wk [] = wk := by
  cases wk; simp [aggTo]

theorem aggTo_cons (wk : Week) (tr : Int × Nat × Nat)
    (l : List (Int × Nat × Nat)) :
    aggTo wk (tr :: l)
      = aggTo { wk with a := wk.a + tr.2.1, d := wk.d + tr.2.2, c := wk.c + 1 }
          l := by
  simp [aggTo]
  refine ⟨by omega, by omega, by omega⟩

theorem addDetail_w_inv (m : List (Int × Week)) (det : Option CommitDetail)
    (hw : ∀ kv ∈ m, (kv.2).w = kv.1) :
    ∀ kv ∈ addDetail m det, (kv.2).w = kv.1 := by
  rcases det with _ | detail
  · simpa [addDetail] using hw
  · rcases hs : detail.stats with _ | st <;> rcases hd : detail.date with _ | date
    all_goals simp only [addDetail, hs, hd]
    · simpa using hw
    · simpa using hw
    · simpa using hw
    · intro kv hkv
      rcases List.mem_map.1 hkv with ⟨p, hp, hpe⟩
      by_cases hpk : p.1 = getWeekStartTimestamp date
      · subst hpe; simp only [hpk, if_true]
        by_cases hhas : mapHas m (getWeekStartTimestamp date)
        · rw [if_pos hhas] at hp
          have := hw p hp
          simp [← hpk, this]
        · rw [if_neg hhas] at hp
          rcases List.mem_append.1 hp with hp | hp
          · have := hw p hp
            simp [← hpk, this]
          · simp only [List.mem_singleton] at hp
            subst hp
            simp
      · subst hpe; simp only [hpk, if_false]
        by_cases hhas : mapHas m (getWeekStartTimestamp date)
        · rw [if_pos hhas] at hp
          exact hw p hp
        · rw [if_neg hhas] at hp
          rcases List.mem_append.1 hp with hp | hp
          · exact hw p hp
          · simp only [List.mem_singleton] at hp
            subst hp
            simp at hpk

theorem not_has_of_keys {κ β : Type} [DecidableEq κ]
    {m : List (κ × β)} {k : κ} (h : mapHas m k = false) :
    k ∉ m.map (·.1) := by
  intro hmem
  rcases List.mem_map.1 hmem with ⟨p, hp, hpe⟩
  have : mapHas m k = true := by
    simp only [mapHas, List.any_eq_true]
    exact ⟨p, hp, by simp [hpe]⟩
  rw [this] at h
  exact absurd h (by simp)

theorem addDetail_keys_nodup (m : List (Int × Week)) (det : Option CommitDetail)
    (h : (m.map (·.1)).Nodup) : ((addDetail m det).map (·.1)).Nodup := by
  rcases det with _ | detail
  · simpa [addDetail] using h
  · rcases hs : detail.stats with _ | st <;> rcases hd : detail.date with _ | date
    all_goals simp only [addDetail, hs, hd]
    · simpa using h
    · simpa using h
    · simpa using h
    · set ws := getWeekStartTimestamp date with hws
      have hkeys : ∀ m1 : List (Int × Week),
          ((m1.map (fun p => if p.1 = ws then
              (ws, { p.2 with
                       a := p.2.a + st.additions.getD 0
                       d := p.2.d + st.deletions.getD 0
                       c := p.2.c + 1 }) else p)).map (·.1)) = m1.map (·.1) := by
        intro m1
        rw [List.map_map]
        refine List.map_congr_left ?_
        intro p _
        by_cases hp : p.1 = ws
        · simp [hp]
        · simp [hp]
      by_cases hhas : mapHas m ws
      · rw [if_pos hhas, hkeys]
        exact h
      · rw [if_neg hhas, hkeys, List.map_append]
        simp only [List.map_cons, List.map_nil]
        rw [List.nodup_append]
        refine ⟨h, List.nodup_singleton _, ?_⟩
        intro x hx hx'
        simp only [List.mem_singleton] at hx'
        subst hx'
        exact not_has_of_keys (by simpa using hhas) hx

theorem buildWeekMap_keys_nodup (details : List (Option CommitDetail)) :
    ((buildWeekMap details).map (·.1)).Nodup := by
  rw [buildWeekMap]
  have : ∀ m : List (Int × Week), (m.map (·.1)).Nodup →
      ((details.foldl addDetail m).map (·.1)).Nodup := by
    induction details with
    | nil => intro m hm; simpa using hm
    | cons det rest ih =>
        intro m hm
        exact ih _ (addDetail_keys_nodup m det hm)
  exact this [] (by simp)

theorem buildWeekMap_w_inv (details : List (Option CommitDetail)) :
    ∀ kv ∈ buildWeekMap details, (kv.2).w = kv.1 := by
  rw [buildWeekMap]
  have : ∀ m : List (Int × Week), (∀ kv ∈ m, (kv.2).w = kv.1) →
      ∀ kv ∈ details.foldl addDetail m, (kv.2).w = kv.1 := by
    induction details with
    | nil => intro m hm; simpa using hm
    | cons det rest ih =>
        intro m hm
        exact ih _ (addDetail_w_inv m det hm)
  exact this [] (by simp)

theorem addDetail_get_valid (m : List (Int × Week)) (detail : CommitDetail)
    (st : CommitStats) (date : Int) (hs : detail.stats = some st)
    (hd : detail.date = some date) (k : Int) :
    mapGet (addDetail m (some detail)) k =
      if k = getWeekStartTimestamp date then
        some ((fun wk => { wk with
                             a := wk.a + st.additions.getD 0
                             d := wk.d + st.deletions.getD 0
                             c := wk.c + 1 })
          ((mapGet m k).getD ⟨k, 0, 0, 0⟩))
      else mapGet m k := by
  simp only [addDetail, hs, hd]
  set ws := getWeekStartTimestamp date with hws
  set g : Week → Week := fun wk =>
    { wk with
        a := wk.a + st.additions.getD 0
        d := wk.d + st.deletions.getD 0
        c := wk.c + 1 } with hg
  by_cases hk : k = ws
  · subst hk
    rw [if_pos rfl]
    by_cases hhas : mapHas m ws
    · rw [if_pos hhas]
      rw [mapGet_map_keyfix_self m ws g]
      have := (mapHas_iff_isSome m ws).1 hhas
      cases hgm : mapGet m ws with
      | none => rw [hgm] at this; simp at this
      | some v => simp [hgm]
    · rw [if_neg hhas]
      rw [mapGet_map_keyfix_self _ ws g]
      have hnone : mapGet m ws = none :=
        mapGet_eq_none_of_not_has (by simpa using hhas)
      rw [mapGet, List.find?_append]
      have : List.find? (fun p => decide (p.1 = ws)) m = none := by
        rw [mapGet] at hnone
        exact Option.map_eq_none.1 hnone
      simp [this, hnone, List.find?_cons]
      simp [hg]
  · rw [if_neg hk]
    by_cases hhas : mapHas m ws
    · rw [if_pos hhas]
      exact mapGet_map_keyfix_ne m k ws g hk
    · rw [if_neg hhas]
      rw [mapGet_map_keyfix_ne _ k ws g hk]
      exact mapGet_append_single_ne m k ws _ hk

theorem addDetail_get_invalid (m : List (Int × Week))
    (det : Option CommitDetail)
    (hinv : ∀ detail st date, det = some detail → detail.stats = some st →
      detail.date = some date → False) :
    addDetail m det = m := by
  rcases det with _ | detail
  · rfl
  · rcases hs : detail.stats with _ | st <;> rcases hd : detail.date with _ | date
    · simp [addDetail, hs, hd]
    · simp [addDetail, hs, hd]
    · simp [addDetail, hs, hd]
    · exact absurd rfl (fun h => hinv detail st date h hs hd)

theorem weekFold_get (details : List (Option CommitDetail))
    (m : List (Int × Week)) (k : Int) :
    mapGet (details.foldl addDetail m) k =
      match mapGet m k with
      | some wk =>
          some (aggTo wk ((validDetails details).filter (fun tr => tr.1 = k)))
      | none =>
          if ((validDetails details).filter (fun tr => tr.1 = k)).isEmpty then
            none
          else
            some (aggTo ⟨k, 0, 0, 0⟩
              ((validDetails details).filter (fun tr => tr.1 = k))) := by
  induction details generalizing m with
  | nil =>
      cases hgm : mapGet m k with
      | none => simp [validDetails, hgm]
      | some wk => simp [validDetails, hgm, aggTo_nil]
  | cons det rest ih =>
      rcases det with _ | detail
      · rw [List.foldl_cons]
        rw [show addDetail m none = m from rfl]
        rw [ih m]
        have hvd : validDetails (none :: rest) = validDetails rest := by
          simp [validDetails, List.filterMap_cons]
        rw [hvd]
      · rcases hs : detail.stats with _ | st <;>
          rcases hd : detail.date with _ | date
        · rw [List.foldl_cons,
            addDetail_get_invalid m (some detail)
              (fun d s dt he hse hde => by
                injection he with he; subst he; rw [hs] at hse; cases hse),
            ih m]
          have hvd : validDetails (some detail :: rest) = validDetails rest := by
            simp [validDetails, List.filterMap_cons, hs, hd]
          rw [hvd]
        · rw [List.foldl_cons,
            addDetail_get_invalid m (some detail)
              (fun d s dt he hse hde => by
                injection he with he; subst he; rw [hs] at hse; cases hse),
            ih m]
          have hvd : validDetails (some detail :: rest) = validDetails rest := by
            simp [validDetails, List.filterMap_cons, hs, hd]
          rw [hvd]
        · rw [List.foldl_cons,
            addDetail_get_invalid m (some detail)
              (fun d s dt he hse hde => by
                injection he with he; subst he; rw [hd] at hde; cases hde),
            ih m]
          have hvd : validDetails (some detail :: rest) = validDetails rest := by
            simp [validDetails, List.filterMap_cons, hs, hd]
          rw [hvd]
        · rw [List.foldl_cons, ih (addDetail m (some detail))]
          rw [addDetail_get_valid m detail st date hs hd k]
          have hvd : validDetails (some detail :: rest)
              = (getWeekStartTimestamp date, st.additions.getD 0,
                  st.deletions.getD 0) :: validDetails rest := by
            simp [validDetails, List.filterMap_cons, hs, hd]
          rw [hvd]
          by_cases hk : k = getWeekStartTimestamp date
          · rw [if_pos hk]
            have hfil : ((getWeekStartTimestamp date, st.additions.getD 0,
                st.deletions.getD 0) :: validDetails rest).filter
                  (fun tr => tr.1 = k)
                = (getWeekStartTimestamp date, st.additions.getD 0,
                    st.deletions.getD 0) ::
                    (validDetails rest).filter (fun tr => tr.1 = k) := by
              rw [List.filter_cons]
              simp [hk]
            rw [hfil]
            cases hgm : mapGet m k with
            | some wk =>
                simp only [Option.getD_some]
                rw [aggTo_cons]
            | none =>
                simp only [Option.getD_none]
                rw [aggTo_cons]
                simp
          · rw [if_neg hk]
            have hfil : ((getWeekStartTimestamp date, st.additions.getD 0,
                st.deletions.getD 0) :: validDetails rest).filter
                  (fun tr => tr.1 = k)
                = (validDetails rest).filter (fun tr => tr.1 = k) := by
              rw [List.filter_cons]
              have hne : ¬ getWeekStartTimestamp date = k := fun h => hk h.symm
              simp [hne]
            rw [hfil]

theorem buildWeekMap_lookup (details : List (Option CommitDetail)) (k : Int) :
    mapGet (buildWeekMap details) k = weekAggSpec details k := by
  rw [buildWeekMap, weekFold_get details [] k]
  rw [show mapGet ([] : List (Int × Week)) k = none from rfl]
  rw [weekAggSpec]
  by_cases he : ((validDetails details).filter (fun tr => tr.1 = k)).isEmpty
  · simp [he]
  · simp only [he, Bool.false_eq_true, if_false]
    simp [aggTo]

theorem applyWeekEntry_found (weeks : List Week) (k : Int) (cw : Week)
    (hmem : weeks.any (fun b => b.w = k) = true)
    (hnd : (weeks.map Week.w).Nodup) :
    applyWeekEntry weeks (k, cw)
      = weeks.map (fun b => if b.w = k then { b with a := cw.a, d := cw.d }
          else b) := by
  induction weeks with
  | nil => simp at hmem
  | cons wk rest ih =>
      by_cases hw : wk.w = k
      · simp only [applyWeekEntry, hw, if_true, List.map_cons]
        have hnotk : ∀ b ∈ rest, ¬ (b.w = k) := by
          intro b hb hbk
          simp only [List.map_cons, List.nodup_cons] at hnd
          exact hnd.1 (by rw [← hw] at hbk; exact (List.mem_map.2 ⟨b, hb, hbk⟩))
        have : rest.map (fun b => if b.w = k then { b with a := cw.a, d := cw.d }
            else b) = rest := by
          apply List.map_congr_left ?_ |>.trans (List.map_id rest)
          intro b hb
          simp [hnotk b hb]
        rw [this]
      · simp only [applyWeekEntry, hw, if_false, List.map_cons]
        have hmem' : rest.any (fun b => b.w = k) = true := by
          simp only [List.any_cons] at hmem
          rcases Bool.or_eq_true_iff.1 hmem with h | h
          · exact absurd (by simpa using h) hw
          · exact h
        have hnd' : (rest.map Week.w).Nodup := by
          simp only [List.map_cons, List.nodup_cons] at hnd
          exact hnd.2
        rw [ih hmem' hnd']

theorem applyWeekEntry_notFound (weeks : List Week) (k : Int) (cw : Week)
    (hmem : weeks.any (fun b => b.w = k) = false) :
    applyWeekEntry weeks (k, cw) = weeks ++ [cw] := by
  induction weeks with
  | nil => rfl
  | cons wk rest ih =>
      simp only [List.any_cons, Bool.or_eq_false_iff] at hmem
      have hw : ¬ (wk.w = k) := by simpa using hmem.1
      simp only [applyWeekEntry, hw, if_false, List.cons_append]
      rw [ih hmem.2]

theorem mapGet_eq_none_of_not_mem_keys {κ β : Type} [DecidableEq κ]
    {m : List (κ × β)} {k : κ} (h : k ∉ m.map (·.1)) :
    mapGet m k = none := by
  apply mapGet_eq_none_of_not_has
  cases hb : mapHas m k with
  | false => rfl
  | true =>
      exfalso
      rw [mapHas, List.any_eq_true] at hb
      rcases hb with ⟨p, hp, hpk⟩
      exact h (List.mem_map.2 ⟨p, hp, by simpa using hpk⟩)

theorem any_w_eq_of_map_w_eq {l₁ l₂ : List Week}
    (h : l₁.map Week.w = l₂.map Week.w) (κ : Int) :
    l₁.any (fun b => b.w = κ) = l₂.any (fun b => b.w = κ) := by
  have h1 : ∀ l : List Week,
      l.any (fun b => b.w = κ) = (l.map Week.w).any (fun x => x = κ) := by
    intro l
    induction l with
    | nil => rfl
    | cons b l ih => simp [List.any_cons, ih]
  rw [h1, h1, h]

theorem weekMerge_fold (wm : List (Int × Week)) (weeks : List Week)
    (hkeys : (wm.map (·.1)).Nodup)
    (hw : ∀ kv ∈ wm, (kv.2).w = kv.1)
    (hweeks : (weeks.map Week.w).Nodup) :
    wm.foldl applyWeekEntry weeks
      = weeks.map (updateByMap wm)
        ++ (wm.filter (fun kv => !(weeks.any (fun b => b.w = kv.1)))).map (·.2) := by
  induction wm generalizing weeks with
  | nil =>
      have : weeks.map (updateByMap []) = weeks := by
        apply (List.map_congr_left ?_).trans (List.map_id weeks)
        intro b _
        simp [updateByMap, mapGet]
      simp [this]
  | cons kv wm ih =>
      obtain ⟨k, cw⟩ := kv
      have hknotin : k ∉ wm.map (·.1) := by
        simp only [List.map_cons, List.nodup_cons] at hkeys
        exact hkeys.1
      have hkeys' : (wm.map (·.1)).Nodup := by
        simp only [List.map_cons, List.nodup_cons] at hkeys
        exact hkeys.2
      have hcw : cw.w = k := by simpa using hw (k, cw) (List.mem_cons_self _ _)
      have hw' : ∀ p ∈ wm, (p.2).w = p.1 :=
        fun p hp => hw p (List.mem_cons_of_mem _ hp)
      have hwmget : mapGet wm k = none := mapGet_eq_none_of_not_mem_keys hknotin
      rw [List.foldl_cons]
      by_cases hmem : weeks.any (fun b => b.w = k) = true
      · rw [applyWeekEntry_found weeks k cw hmem hweeks]
        set upd1 : Week → Week :=
          fun b => if b.w = k then { b with a := cw.a, d := cw.d } else b with hupd1
        have hwmap : (weeks.map upd1).map Week.w = weeks.map Week.w := by
          rw [List.map_map]
          refine List.map_congr_left ?_
          intro b _
          by_cases hb : b.w = k
          · simp [hupd1, hb]
          · simp [hupd1, hb]
        have hweeks₁ : ((weeks.map upd1).map Week.w).Nodup := by
          rw [hwmap]; exact hweeks
        rw [ih (weeks.map upd1) hkeys' hw' hweeks₁]
        have hT1 : (weeks.map upd1).map (updateByMap wm)
            = weeks.map (updateByMap ((k, cw) :: wm)) := by
          rw [List.map_map]
          refine List.map_congr_left ?_
          intro b _
          by_cases hb : b.w = k
          · have h1 : upd1 b = { b with a := cw.a, d := cw.d } := by
              simp [hupd1, hb]
            have h2 : updateByMap wm { b with a := cw.a, d := cw.d }
                = { b with a := cw.a, d := cw.d } := by
              simp [updateByMap, hb, hwmget]
            have h3 : updateByMap ((k, cw) :: wm) b
                = { b with a := cw.a, d := cw.d } := by
              simp [updateByMap, mapGet, List.find?_cons, hb]
            simp [Function.comp, h1, h2, h3]
          · have h1 : upd1 b = b := by simp [hupd1, hb]
            have h3 : updateByMap ((k, cw) :: wm) b = updateByMap wm b := by
              have : ¬ (k = b.w) := fun hh => hb hh.symm
              simp [updateByMap, mapGet, List.find?_cons, this]
            simp [Function.comp, h1, h3]
        have hT2 : wm.filter
              (fun p => !((weeks.map upd1).any (fun b => b.w = p.1)))
            = wm.filter (fun p => !(weeks.any (fun b => b.w = p.1))) := by
          refine List.filter_congr ?_
          intro p _
          rw [any_w_eq_of_map_w_eq hwmap]
        have hhead : List.filter
              (fun kv => !(weeks.any (fun b => b.w = kv.1))) ((k, cw) :: wm)
            = wm.filter (fun kv => !(weeks.any (fun b => b.w = kv.1))) := by
          rw [List.filter_cons]
          simp [hmem]
        rw [hT1, hT2, hhead]
      · have hmem' : weeks.any (fun b => b.w = k) = false := by
          cases hb : weeks.any (fun b => b.w = k) with
          | false => rfl
          | true => exact absurd hb hmem
        rw [applyWeekEntry_notFound weeks k cw hmem']
        have hkw : k ∉ weeks.map Week.w := by
          intro hmemk
          rcases List.mem_map.1 hmemk with ⟨b, hb, hbe⟩
          rw [List.any_eq_false] at hmem'
          exact hmem' b hb (by simpa using hbe)
        have hwmap : (weeks ++ [cw]).map Week.w = weeks.map Week.w ++ [k] := by
          simp [hcw]
        have hweeks₁ : ((weeks ++ [cw]).map Week.w).Nodup := by
          rw [hwmap]
          rw [List.nodup_append]
          exact ⟨hweeks, List.nodup_singleton _, by
            intro x hx hx'
            simp only [List.mem_singleton] at hx'
            subst hx'
            exact hkw hx⟩
        rw [ih (weeks ++ [cw]) hkeys' hw' hweeks₁]
        have hT1 : (weeks ++ [cw]).map (updateByMap wm)
            = weeks.map (updateByMap ((k, cw) :: wm)) ++ [cw] := by
          rw [List.map_append]
          congr 1
          · refine List.map_congr_left ?_
            intro b hb
            have hbk : ¬ (b.w = k) := by
              intro hh
              exact hkw (List.mem_map.2 ⟨b, hb, hh⟩)
            have : ¬ (k = b.w) := fun hh => hbk hh.symm
            simp [updateByMap, mapGet, List.find?_cons, this]
          · simp [updateByMap, hcw, hwmget]
        have hT2 : wm.filter
              (fun p => !((weeks ++ [cw]).any (fun b => b.w = p.1)))
            = wm.filter (fun p => !(weeks.any (fun b => b.w = p.1))) := by
          refine List.filter_congr ?_
          intro p hp
          have hpk : p.1 ≠ k := by
            intro hh
            exact hknotin (List.mem_map.2 ⟨p, hp, hh⟩)
          have : ¬ (cw.w = p.1) := by
            rw [hcw]
            exact fun hh => hpk hh.symm
          simp [List.any_append, this]
        have hhead : List.filter
              (fun kv => !(weeks.any (fun b => b.w = kv.1))) ((k, cw) :: wm)
            = (k, cw) :: wm.filter (fun kv => !(weeks.any (fun b => b.w = kv.1))) := by
          rw [List.filter_cons]
          simp [hmem']
        rw [hT1, hT2, hhead]
        simp

/-- C4: for a qualifying contributor's backfill, the week key of a valid
commit detail is exactly the most recent Sunday 00:00 UTC on or before the
authored date (as a whole-second Unix timestamp: a day-aligned second count
whose day number is ≡ Sunday, at most the date, and maximal such); the
per-week aggregate maps each week key to the sums of additions and deletions
and the count of the valid details in that week; and the merge replaces an
empty week set wholly, while a non-empty week set (with distinct week keys)
gets each matching bucket's additions/deletions overwritten — commit counter
untouched — and each unmatched new bucket appended at the end. -/
theorem diffBackfill_spec (details : List (Option CommitDetail)) (t : Int)
    (weeks : List Week) (hweeks : (weeks.map Week.w).Nodup) :
    (getWeekStartTimestamp t % 86400 = 0
      ∧ (getWeekStartTimestamp t / 86400 + 4) % 7 = 0
      ∧ getWeekStartTimestamp t * 1000 ≤ t
      ∧ ∀ s : Int, s % 86400 = 0 → (s / 86400 + 4) % 7 = 0 → s * 1000 ≤ t →
          s ≤ getWeekStartTimestamp t)
    ∧ (∀ k, mapGet (buildWeekMap details) k = weekAggSpec details k)
    ∧ fillWeeks [] (buildWeekMap details) = (buildWeekMap details).map (·.2)
    ∧ (weeks ≠ [] →
        fillWeeks weeks (buildWeekMap details)
          = weeks.map (updateByMap (buildWeekMap details))
            ++ ((buildWeekMap details).filter
                  (fun kv => !(weeks.any (fun b => b.w = kv.1)))).map (·.2)) := by
  refine ⟨?_, fun k => buildWeekMap_lookup details k, rfl, fun hne => ?_⟩
  · have h : getWeekStartTimestamp t =
        (86400000 * (t / 86400000) - (t / 86400000 + 4) % 7 * 86400000) / 1000 :=
      rfl
    rw [h]
    exact ⟨by omega, by omega, by omega, fun s h1 h2 h3 => by omega⟩
  · rw [fillWeeks]
    rw [if_neg (by simpa [List.isEmpty_iff] using hne)]
    exact weekMerge_fold (buildWeekMap details) weeks
      (buildWeekMap_keys_nodup details) (buildWeekMap_w_inv details) hweeks

/-- Witness for C4 at one concrete detail list and week set. -/
theorem diffBackfill_spec_witness :
    (([⟨259200, 1, 2, 3⟩] : List Week).map Week.w).Nodup
    ∧ fillWeeks [] (buildWeekMap [some ⟨some ⟨some 5, some 2⟩, some 0⟩])
        = (buildWeekMap [some ⟨some ⟨some 5, some 2⟩, some 0⟩]).map (·.2) :=
  ⟨by decide,
   (diffBackfill_spec [some ⟨some ⟨some 5, some 2⟩, some 0⟩] 0
      [⟨259200, 1, 2, 3⟩] (by decide)).2.2.1⟩

/-- C8: every failure path of a contributor's backfill — a thrown commit-list
fetch, a non-ok response, a non-array body, or an empty commit list — leaves
that contributor's record exactly as it was, and the backfill batch treats
each contributor independently: the result at every position is a function of
that contributor's own record and its own fetch outcome alone, so no failure
escapes to the overall result or to other contributors. -/
theorem backfill_error_isolation :
    (∀ (env : BackfillEnv) (c : Contributor),
        env.thrown = true ∨ env.commitsOk = false ∨ env.commits = none
          ∨ env.commits = some [] →
        fillDiffStats env c = c)
    ∧ (∀ (envOf : String → BackfillEnv) (cs : List Contributor) (i : Nat),
        (backfillAll envOf cs)[i]?
          = cs[i]?.map (fun c =>
              if needsDiffStats c then fillDiffStats (envOf c.login) c else c)) := by
  constructor
  · intro env c h
    rcases h with h | h | h | h
    · simp [fillDiffStats, h]
    · by_cases ht : env.thrown <;> simp [fillDiffStats, h, ht]
    · by_cases ht : env.thrown <;>
        by_cases hok : env.commitsOk <;>
          simp [fillDiffStats, h, ht, hok]
    · by_cases ht : env.thrown <;>
        by_cases hok : env.commitsOk <;>
          simp [fillDiffStats, h, ht, hok]
  · intro envOf cs i
    simp [backfillAll]

/-- Witness for C8: a thrown fetch leaves a concrete contributor unchanged. -/
theorem backfill_error_isolation_witness :
    fillDiffStats ⟨true, true, none, fun _ => none⟩
        ⟨"solo", "", "", [⟨0, 0, 0, 5⟩], none⟩
      = ⟨"solo", "", "", [⟨0, 0, 0, 5⟩], none⟩ :=
  backfill_error_isolation.1 ⟨true, true, none, fun _ => none⟩
    ⟨"solo", "", "", [⟨0, 0, 0, 5⟩], none⟩ (Or.inl rfl)

theorem round_mono_real {x y : ℝ} (h : x ≤ y) : round x ≤ round y := by
  rw [round_eq, round_eq]
  exact Int.floor_le_floor (by linarith)

theorem bonusOf_eq (avg : ℝ) :
    bonusOf avg = if 0 < avg ∧ avg ≤ 100 then 10 - |avg - 50| / 5 else 0 := by
  rw [bonusOf, linesPerCommitBaseline]
  have h100 : (50:ℝ) * 2 = 100 := by norm_num
  rw [h100]
  by_cases h : 0 < avg ∧ avg ≤ 100
  · rw [if_pos h, if_pos h]
    rw [min_eq_right (by
      have h0 : (0:ℝ) ≤ |avg - 50| / 50 := by positivity
      linarith)]
    ring
  · rw [if_neg h, if_neg h]

theorem bonusOf_nonneg (avg : ℝ) : 0 ≤ bonusOf avg := by
  rw [bonusOf_eq]
  by_cases h : 0 < avg ∧ avg ≤ 100
  · rw [if_pos h]
    rcases abs_cases (avg - 50) with ⟨he, _⟩ | ⟨he, _⟩ <;> rw [he] <;>
      [linarith [h.2]; linarith [h.1]]
  · rw [if_neg h]

theorem bonusOf_le_ten (avg : ℝ) : bonusOf avg ≤ 10 := by
  rw [bonusOf_eq]
  by_cases h : 0 < avg ∧ avg ≤ 100
  · rw [if_pos h]
    have h0 : (0:ℝ) ≤ |avg - 50| / 5 := by positivity
    linarith
  · rw [if_neg h]; norm_num

theorem logb_term_nonneg (n : ℕ) : 0 ≤ Real.logb 10 ((n : ℝ) + 1) :=
  Real.logb_nonneg (by norm_num) (by
    have : (0:ℝ) ≤ (n : ℝ) := Nat.cast_nonneg n
    linarith)

theorem preScore_nonneg (commits additions deletions : ℕ) :
    0 ≤ preScore commits additions deletions := by
  rw [preScore, commitWeight, additionsWeight, deletionsWeight]
  have h1 := logb_term_nonneg commits
  have h2 := logb_term_nonneg additions
  have h3 := logb_term_nonneg deletions
  have h4 := bonusOf_nonneg (avgLinesPerCommit commits additions deletions)
  rw [balanceBonus]
  nlinarith

/-- C10: for all inputs, the balance bonus lies in the closed interval
[0, 10] — in particular it is never negative — and consequently the returned
score is never negative either. -/
theorem balanceBonus_bounds_and_score_nonneg (commits additions deletions : ℕ) :
    0 ≤ balanceBonus commits additions deletions
    ∧ balanceBonus commits additions deletions ≤ 10
    ∧ 0 ≤ calculateScore commits additions deletions := by
  refine ⟨bonusOf_nonneg _, bonusOf_le_ten _, ?_⟩
  rw [calculateScore]
  have hpre : 0 ≤ preScore commits additions deletions * 10 := by
    have := preScore_nonneg commits additions deletions
    linarith
  have hr : (0:ℤ) ≤ round (preScore commits additions deletions * 10) := by
    have := round_mono_real hpre
    rwa [round_zero] at this
  have : (0:ℝ) ≤ ((round (preScore commits additions deletions * 10) : ℤ) : ℝ) := by
    exact_mod_cast hr
  linarith

theorem logb_ten_two_le : Real.logb 10 2 ≤ 302 / 1000 := by
  rw [Real.logb, div_le_iff₀ (Real.log_pos (by norm_num))]
  have h1 : Real.log ((2:ℝ) ^ (1000:ℕ)) = 1000 * Real.log 2 := by
    rw [Real.log_pow]; norm_num
  have h2 : Real.log ((10:ℝ) ^ (302:ℕ)) = 302 * Real.log 10 := by
    rw [Real.log_pow]; norm_num
  have h3 : Real.log ((2:ℝ) ^ (1000:ℕ)) ≤ Real.log ((10:ℝ) ^ (302:ℕ)) :=
    Real.log_le_log (by positivity) (by norm_num)
  rw [h1, h2] at h3
  linarith

theorem logb_hundred_sub_le : Real.logb 10 100 - Real.logb 10 51 ≤ 302 / 1000 := by
  have hm : Real.logb 10 100 ≤ Real.logb 10 2 + Real.logb 10 51 := by
    rw [← Real.logb_mul (by norm_num) (by norm_num)]
    exact Real.logb_le_logb_of_le (by norm_num) (by norm_num) (by norm_num)
  linarith [logb_ten_two_le]

theorem score_close_preScore (c a d : ℕ) :
    |preScore c a d - calculateScore c a d| ≤ 1 / 20 := by
  rw [calculateScore]
  have h := abs_sub_round (preScore c a d * 10)
  have he : preScore c a d - ((round (preScore c a d * 10) : ℤ) : ℝ) / 10
      = (preScore c a d * 10 - ((round (preScore c a d * 10) : ℤ) : ℝ)) / 10 := by
    ring
  rw [he, abs_div]
  rw [show |(10:ℝ)| = 10 by norm_num]
  rw [div_le_iff₀ (by norm_num : (0:ℝ) < 10)]
  calc |preScore c a d * 10 - ((round (preScore c a d * 10) : ℤ) : ℝ)| ≤ 1/2 := h
  _ ≤ 1/20 * 10 := by norm_num

/-- C1 counterexample: the score is not non-decreasing in additions (nor, by
the symmetric instance, in deletions): moving from 50 to 99 additions at one
commit drops the balance bonus from 10 to 0.2 while the additions term grows
by only 3.5·log10(100/51) < 1.06, so the rounded score strictly falls; same
for deletions with an even smaller logarithmic gain. -/
theorem calculateScore_not_monotone :
    (50 ≤ 99 ∧ calculateScore 1 99 0 < calculateScore 1 50 0)
    ∧ (50 ≤ 99 ∧ calculateScore 1 0 99 < calculateScore 1 0 50) := by
  have b50 : balanceBonus 1 50 0 = 10 := by
    rw [balanceBonus, avgLinesPerCommit]
    norm_num [bonusOf, linesPerCommitBaseline]
  have b99 : balanceBonus 1 99 0 = 1/5 := by
    rw [balanceBonus, avgLinesPerCommit]
    norm_num [bonusOf, linesPerCommitBaseline]
  have b50d : balanceBonus 1 0 50 = 10 := by
    rw [balanceBonus, avgLinesPerCommit]
    norm_num [bonusOf, linesPerCommitBaseline]
  have b99d : balanceBonus 1 0 99 = 1/5 := by
    rw [balanceBonus, avgLinesPerCommit]
    norm_num [bonusOf, linesPerCommitBaseline]
  have p50 : preScore 1 50 0
      = Real.logb 10 2 * 40 + Real.logb 10 51 * (7/2) + 10 := by
    simp only [preScore]
    rw [b50]
    norm_num [commitWeight, additionsWeight, deletionsWeight, Real.logb_one]
    ring
  have p99 : preScore 1 99 0
      = Real.logb 10 2 * 40 + Real.logb 10 100 * (7/2) + 1/5 := by
    simp only [preScore]
    rw [b99]
    norm_num [commitWeight, additionsWeight, deletionsWeight, Real.logb_one]
    ring
  have p50d : preScore 1 0 50
      = Real.logb 10 2 * 40 + Real.logb 10 51 * (5/2) + 10 := by
    simp only [preScore]
    rw [b50d]
    norm_num [commitWeight, additionsWeight, deletionsWeight, Real.logb_one]
    ring
  have p99d : preScore 1 0 99
      = Real.logb 10 2 * 40 + Real.logb 10 100 * (5/2) + 1/5 := by
    simp only [preScore]
    rw [b99d]
    norm_num [commitWeight, additionsWeight, deletionsWeight, Real.logb_one]
    ring
  have hgap := logb_hundred_sub_le
  have c1 := score_close_preScore 1 99 0
  have c2 := score_close_preScore 1 50 0
  have c3 := score_close_preScore 1 0 99
  have c4 := score_close_preScore 1 0 50
  rw [abs_le] at c1 c2 c3 c4
  refine ⟨⟨by norm_num, ?_⟩, ⟨by norm_num, ?_⟩⟩
  · have : preScore 1 99 0 + 1/10 < preScore 1 50 0 := by
      rw [p50, p99]
      nlinarith
    linarith [c1.1, c1.2, c2.1, c2.2]
  · have : preScore 1 0 99 + 1/10 < preScore 1 0 50 := by
      rw [p50d, p99d]
      nlinarith
    linarith [c3.1, c3.2, c4.1, c4.2]

theorem bonusOf_drop (u : ℝ) (c : ℕ) (hc : 1 ≤ c) (hu : 0 ≤ u) :
    bonusOf (u / (c:ℝ)) - bonusOf (u / ((c:ℝ) + 1)) ≤ 10 / ((c:ℝ) + 1) := by
  have hc' : (1:ℝ) ≤ (c:ℝ) := by exact_mod_cast hc
  have hcpos : (0:ℝ) < (c:ℝ) := by linarith
  have hc1pos : (0:ℝ) < (c:ℝ) + 1 := by linarith
  set x1 : ℝ := u / (c:ℝ) with hx1def
  set x2 : ℝ := u / ((c:ℝ) + 1) with hx2def
  have hx1 : x1 * (c:ℝ) = u := div_mul_cancel₀ u (ne_of_gt hcpos)
  have hx2 : x2 * ((c:ℝ) + 1) = u := div_mul_cancel₀ u (ne_of_gt hc1pos)
  have hx2nn : 0 ≤ x2 := div_nonneg hu (le_of_lt hc1pos)
  have hx1nn : 0 ≤ x1 := div_nonneg hu (le_of_lt hcpos)
  have hkey : (x1 - x2) * ((c:ℝ) + 1) = x1 := by nlinarith [hx1, hx2]
  have hx21 : x2 ≤ x1 := by nlinarith [hkey]
  have hT : (0:ℝ) < 10 / ((c:ℝ) + 1) := by positivity
  have hT50 : (0:ℝ) ≤ 50 / ((c:ℝ) + 1) := by positivity
  have hF : (50 / ((c:ℝ) + 1)) * ((c:ℝ) + 1) = 50 :=
    div_mul_cancel₀ _ (ne_of_gt hc1pos)
  rw [bonusOf_eq, bonusOf_eq]
  by_cases h1 : 0 < x1 ∧ x1 ≤ 100
  · rw [if_pos h1]
    by_cases h2 : 0 < x2 ∧ x2 ≤ 100
    · rw [if_pos h2]
      have hgoal : |x2 - 50| - |x1 - 50| ≤ 50 / ((c:ℝ) + 1) := by
        rcases abs_cases (x1 - 50) with ⟨e1, s1⟩ | ⟨e1, s1⟩ <;>
          rcases abs_cases (x2 - 50) with ⟨e2, s2⟩ | ⟨e2, s2⟩ <;>
            rw [e1, e2]
        · -- x1 ≥ 50, x2 ≥ 50
          linarith [hx21, hT50]
        · -- x1 ≥ 50, x2 < 50 : need 100 - x1 - x2 ≤ 50/(c+1)
          have hlb : (50 - 50 / ((c:ℝ) + 1)) * ((c:ℝ) + 1) ≤ x2 * ((c:ℝ) + 1) := by
            have hxc : 50 * (c:ℝ) ≤ x1 * (c:ℝ) := by nlinarith [s1]
            have hexp : (50 - 50 / ((c:ℝ) + 1)) * ((c:ℝ) + 1) = 50 * (c:ℝ) := by
              field_simp
              ring
            rw [hexp]
            nlinarith [hx1, hx2]
          have hx2lb : 50 - 50 / ((c:ℝ) + 1) ≤ x2 :=
            le_of_mul_le_mul_right hlb hc1pos
          linarith [s1]
        · -- x1 < 50, x2 ≥ 50 : impossible
          linarith [hx21, hT50]
        · -- x1 < 50, x2 < 50 : x1 - x2 = x1/(c+1) ≤ 50/(c+1)
          have hstep : (x1 - x2) * ((c:ℝ) + 1) ≤ (50 / ((c:ℝ) + 1)) * ((c:ℝ) + 1) := by
            rw [hF, hkey]
            linarith [s1]
          have := le_of_mul_le_mul_right hstep hc1pos
          linarith
      have hdiv : 50 / ((c:ℝ) + 1) = 5 * (10 / ((c:ℝ) + 1)) := by ring
      linarith [hgoal]
    · rw [if_neg h2]
      exfalso
      push_neg at h2
      by_cases hx2pos : 0 < x2
      · have := h2 hx2pos
        linarith [h1.2, hx21]
      · have hx2z : x2 = 0 := le_antisymm (le_of_not_lt hx2pos) hx2nn
        have hu0 : u = 0 := by rw [← hx2, hx2z]; ring
        have hx10 : x1 * (c:ℝ) = 0 := by rw [hx1, hu0]
        rcases mul_eq_zero.1 hx10 with h | h
        · linarith [h1.1]
        · linarith
  · rw [if_neg h1]
    by_cases h2 : 0 < x2 ∧ x2 ≤ 100
    · rw [if_pos h2]
      have habs : |x2 - 50| ≤ 50 := by
        rw [abs_le]
        constructor <;> linarith [h2.1, h2.2]
      have h0 : 0 ≤ 10 - |x2 - 50| / 5 := by linarith
      linarith
    · rw [if_neg h2]
      linarith

theorem log_ten_le : Real.log 10 ≤ 8 / 3 := by
  have h1 : Real.log ((10:ℝ) ^ (3:ℕ)) = 3 * Real.log 10 := by
    rw [Real.log_pow]; norm_num
  have hexp : (1000:ℝ) ≤ Real.exp 8 := by
    have h3 : (2.7182818283:ℝ) ^ (8:ℕ) ≤ (Real.exp 1) ^ (8:ℕ) :=
      pow_le_pow_left₀ (by norm_num) (le_of_lt Real.exp_one_gt_d9) 8
    have h4 : (Real.exp 1) ^ (8:ℕ) = Real.exp 8 := by
      rw [Real.exp_one_pow]; norm_num
    have h5 : (1000:ℝ) ≤ (2.7182818283:ℝ) ^ (8:ℕ) := by norm_num
    linarith
  have h2 : Real.log ((10:ℝ) ^ (3:ℕ)) ≤ 8 := by
    rw [Real.log_le_iff_le_exp (by positivity)]
    norm_num
    exact hexp
  rw [h1] at h2
  linarith

theorem logb_gain (c : ℕ) (hc : 1 ≤ c) :
    10 / ((c:ℝ) + 1)
      ≤ 40 * (Real.logb 10 ((c:ℝ) + 1 + 1) - Real.logb 10 ((c:ℝ) + 1)) := by
  have hc' : (1:ℝ) ≤ (c:ℝ) := by exact_mod_cast hc
  have h1pos : (0:ℝ) < (c:ℝ) + 1 := by linarith
  have h2pos : (0:ℝ) < (c:ℝ) + 2 := by linarith
  have hl10 : (0:ℝ) < Real.log 10 := Real.log_pos (by norm_num)
  have hlog : 1 / ((c:ℝ) + 2) ≤ Real.log ((c:ℝ) + 1 + 1) - Real.log ((c:ℝ) + 1) := by
    have hq : Real.log (((c:ℝ) + 1) / ((c:ℝ) + 2)) ≤ ((c:ℝ) + 1) / ((c:ℝ) + 2) - 1 :=
      Real.log_le_sub_one_of_pos (by positivity)
    have hd : Real.log (((c:ℝ) + 1) / ((c:ℝ) + 2))
        = Real.log ((c:ℝ) + 1) - Real.log ((c:ℝ) + 2) :=
      Real.log_div (by linarith) (by linarith)
    have he : ((c:ℝ) + 1) / ((c:ℝ) + 2) - 1 = -(1 / ((c:ℝ) + 2)) := by
      field_simp
      norm_num
    rw [hd, he] at hq
    have h22 : (c:ℝ) + 1 + 1 = (c:ℝ) + 2 := by ring
    rw [h22]
    linarith
  set del : ℝ := Real.log ((c:ℝ) + 1 + 1) - Real.log ((c:ℝ) + 1) with hdel
  have hdelnn : 0 ≤ del := by
    have : (0:ℝ) < 1 / ((c:ℝ) + 2) := by positivity
    linarith
  have hinv : (3:ℝ) / 8 ≤ 1 / Real.log 10 := by
    have := one_div_le_one_div_of_le hl10 log_ten_le
    calc (3:ℝ)/8 = 1 / (8/3) := by norm_num
    _ ≤ 1 / Real.log 10 := this
  have s1 : del * (3/8) ≤ del / Real.log 10 := by
    rw [div_eq_mul_one_div del (Real.log 10)]
    exact mul_le_mul_of_nonneg_left hinv hdelnn
  have s3 : 10 / ((c:ℝ) + 1) ≤ 15 / ((c:ℝ) + 2) := by
    rw [div_le_div_iff₀ h1pos h2pos]
    linarith
  have s2 : 15 / ((c:ℝ) + 2) ≤ 15 * del := by
    have h15 : (15:ℝ) / ((c:ℝ) + 2) = 15 * (1 / ((c:ℝ) + 2)) := by ring
    rw [h15]
    linarith [hlog]
  rw [Real.logb, Real.logb, div_sub_div_same]
  calc 10 / ((c:ℝ) + 1) ≤ 15 / ((c:ℝ) + 2) := s3
  _ ≤ 15 * del := s2
  _ = 40 * (del * (3/8)) := by ring
  _ ≤ 40 * (del / Real.log 10) := by linarith [s1]

theorem balanceBonus_drop (c a d : ℕ) (hc : 1 ≤ c) :
    balanceBonus c a d - balanceBonus (c + 1) a d ≤ 10 / ((c:ℝ) + 1) := by
  rw [balanceBonus, balanceBonus, avgLinesPerCommit, avgLinesPerCommit]
  rw [if_pos (show 0 < c from hc), if_pos (Nat.succ_pos c)]
  push_cast
  exact bonusOf_drop ((a:ℝ) + (d:ℝ)) c hc (by positivity)

theorem preScore_step (c a d : ℕ) : preScore c a d ≤ preScore (c + 1) a d := by
  rcases Nat.eq_zero_or_pos c with h0 | hpos
  · subst h0
    simp only [preScore]
    have hb0 : balanceBonus 0 a d = 0 := by
      rw [balanceBonus, avgLinesPerCommit]
      norm_num [bonusOf]
    have hb1 : 0 ≤ balanceBonus 1 a d := bonusOf_nonneg _
    have hl1 : Real.logb 10 ((0:ℕ) + 1 : ℝ) = 0 := by norm_num
    have hl2 : 0 ≤ Real.logb 10 (2:ℝ) :=
      Real.logb_nonneg (by norm_num) (by norm_num)
    rw [hb0]
    push_cast
    rw [commitWeight]
    norm_num [Real.logb_one]
    nlinarith [hl2, hb1]
  · have hc : 1 ≤ c := hpos
    have hb := balanceBonus_drop c a d hc
    have hg := logb_gain c hc
    simp only [preScore]
    rw [commitWeight]
    push_cast
    nlinarith [hb, hg]

/-- C1 (amended): the score is non-decreasing in commits for fixed additions
and deletions — the per-step bonus drop is at most 10/(c+1) while the
weighted commit term grows by at least that much — and rounding to one
decimal preserves monotonicity. -/
theorem calculateScore_mono_commits (c c' a d : ℕ) (h : c ≤ c') :
    calculateScore c a d ≤ calculateScore c' a d := by
  have hpre : preScore c a d ≤ preScore c' a d := by
    induction c', h using Nat.le_induction with
    | base => exact le_refl _
    | succ n hmn ih => exact le_trans ih (preScore_step n a d)
  rw [calculateScore, calculateScore]
  have hr := round_mono_real
    (by linarith : preScore c a d * 10 ≤ preScore c' a d * 10)
  have hcast : ((round (preScore c a d * 10) : ℤ) : ℝ)
      ≤ ((round (preScore c' a d * 10) : ℤ) : ℝ) := by exact_mod_cast hr
  linarith

/-- Witness for the amended C1 at a concrete increase of commits. -/
theorem calculateScore_mono_commits_witness :
    2 ≤ 3 ∧ calculateScore 2 7 5 ≤ calculateScore 3 7 5 :=
  ⟨by norm_num, calculateScore_mono_commits 2 3 7 5 (by norm_num)⟩

theorem find?_cons_pos {α : Type} {p : α → Bool} {a : α} {l : List α}
    (h : p a = true) : List.find? p (a :: l) = some a := by
  simp [List.find?_cons, h]

theorem find?_cons_neg {α : Type} {p : α → Bool} {a : α} {l : List α}
    (h : p a = false) : List.find? p (a :: l) = List.find? p l := by
  simp [List.find?_cons, h]

theorem assignTitle_eq_spec (c a d : ℕ) :
    assignTitle c a d = specAssignTitle (c, a, d) := by
  have hA : assignTitle c a d =
      (if 500 ≤ c then ("🏛️ Code Architect", "#FFD700")
       else if 0.6 < deleteRatioOf (c, a, d) ∧ 100 < totalOf (c, a, d) then
         ("🧹 The Cleaner", "#9B59B6")
       else if 500 < ratioOf (c, a, d) then ("🌊 Tsunami Coder", "#3498DB")
       else if ratioOf (c, a, d) < 20 ∧ 50 < c then ("⚡ Rapid Fire", "#E74C3C")
       else if 50000 < a then ("📚 Novel Writer", "#2ECC71")
       else if 100 ≤ c then ("🎖️ Veteran", "#F39C12")
       else if 50 ≤ c then ("⚔️ Warrior", "#E67E22")
       else if 20 ≤ c then ("🛡️ Defender", "#1ABC9C")
       else if 10 ≤ c then ("🌱 Rising Star", "#27AE60")
       else if 1 ≤ c then ("🆕 Fresh Blood", "#95A5A6")
       else ("💤 Inactive", "#666677")) := rfl
  rw [hA, specAssignTitle, titleRules]
  by_cases h1 : 500 ≤ c
  · rw [if_pos h1, find?_cons_pos (by simp [h1])]; rfl
  · rw [if_neg h1, find?_cons_neg (by simp [h1])]
    by_cases h2 : 0.6 < deleteRatioOf (c, a, d) ∧ 100 < totalOf (c, a, d)
    · rw [if_pos h2, find?_cons_pos (by simp [h2.1, h2.2])]; rfl
    · rw [if_neg h2, find?_cons_neg (by rcases not_and_or.1 h2 with h | h <;> simp [h])]
      by_cases h3 : 500 < ratioOf (c, a, d)
      · rw [if_pos h3, find?_cons_pos (by simp [h3])]; rfl
      · rw [if_neg h3, find?_cons_neg (by simp [h3])]
        by_cases h4 : ratioOf (c, a, d) < 20 ∧ 50 < c
        · rw [if_pos h4, find?_cons_pos (by simp [h4.1, h4.2])]; rfl
        · rw [if_neg h4, find?_cons_neg (by rcases not_and_or.1 h4 with h | h <;> simp [h])]
          by_cases h5 : 50000 < a
          · rw [if_pos h5, find?_cons_pos (by simp [h5])]; rfl
          · rw [if_neg h5, find?_cons_neg (by simp [h5])]
            by_cases h6 : 100 ≤ c
            · rw [if_pos h6, find?_cons_pos (by simp [h6])]; rfl
            · rw [if_neg h6, find?_cons_neg (by simp [h6])]
              by_cases h7 : 50 ≤ c
              · rw [if_pos h7, find?_cons_pos (by simp [h7])]; rfl
              · rw [if_neg h7, find?_cons_neg (by simp [h7])]
                by_cases h8 : 20 ≤ c
                · rw [if_pos h8, find?_cons_pos (by simp [h8])]; rfl
                · rw [if_neg h8, find?_cons_neg (by simp [h8])]
                  by_cases h9 : 10 ≤ c
                  · rw [if_pos h9, find?_cons_pos (by simp [h9])]; rfl
                  · rw [if_neg h9, find?_cons_neg (by simp [h9])]
                    by_cases h10 : 1 ≤ c
                    · rw [if_pos h10, find?_cons_pos (by simp [h10])]; rfl
                    · rw [if_neg h10, find?_cons_neg (by simp [h10])]
                      rfl

/-- C6: title classification evaluates the spec's eleven rules in order with
first match winning — the if-chain equals the ordered-rule-list semantics —
in particular 500 commits with no line changes gives Code Architect, and
inputs matching none of the ten positive rules give Inactive. -/
theorem titleClassifier_spec :
    (∀ commits additions deletions : ℕ,
        assignTitle commits additions deletions
          = specAssignTitle (commits, additions, deletions))
    ∧ assignTitle 500 0 0 = ("🏛️ Code Architect", "#FFD700")
    ∧ (∀ commits additions deletions : ℕ,
        (∀ r ∈ titleRules, r.1 (commits, additions, deletions) = false) →
        assignTitle commits additions deletions = ("💤 Inactive", "#666677")) := by
  refine ⟨assignTitle_eq_spec, by decide, ?_⟩
  intro commits additions deletions hall
  rw [assignTitle_eq_spec, specAssignTitle]
  rw [List.find?_eq_none.2 (fun r hr => by rw [hall r hr]; simp)]
  rfl

/-- Witness for C6: a contributor with no commits matches no rule and is
Inactive. -/
theorem titleClassifier_spec_witness :
    assignTitle 0 3 4 = ("💤 Inactive", "#666677") :=
  titleClassifier_spec.2.2 0 3 4 (by
    intro r hr
    fin_cases hr <;> norm_num [deleteRatioOf, totalOf, ratioOf])

theorem filter_orderedInsert_of_neg {α : Type} (r : α → α → Prop)
    [DecidableRel r] (p : α → Bool) (a : α) (l : List α) (ha : p a = false) :
    (List.orderedInsert r a l).filter p = l.filter p := by
  induction l with
  | nil => simp [List.orderedInsert, List.filter, ha]
  | cons b l ih =>
      by_cases hr : r a b
      · simp [List.orderedInsert, hr, List.filter_cons, ha]
      · simp only [List.orderedInsert, hr, if_false, List.filter_cons]
        cases hp : p b <;> simp [hp, ih]

theorem filter_orderedInsert_of_pos {α : Type} (r : α → α → Prop)
    [DecidableRel r] (p : α → Bool) (a : α) (l : List α) (ha : p a = true)
    (hcl : ∀ b, ¬ r a b → p b = false) :
    (List.orderedInsert r a l).filter p = a :: l.filter p := by
  induction l with
  | nil => simp [List.orderedInsert, List.filter, ha]
  | cons b l ih =>
      by_cases hr : r a b
      · simp [List.orderedInsert, hr, List.filter_cons, ha]
      · have hb : p b = false := hcl b hr
        simp only [List.orderedInsert, hr, if_false, List.filter_cons, hb]
        simpa [hb] using ih

theorem filter_insertionSort {α : Type} (r : α → α → Prop) [DecidableRel r]
    (p : α → Bool) (l : List α)
    (hpr : ∀ a b, p a = true → p b = true → r a b) :
    (List.insertionSort r l).filter p = l.filter p := by
  induction l with
  | nil => rfl
  | cons a l ih =>
      rw [List.insertionSort]
      cases hp : p a
      · rw [filter_orderedInsert_of_neg r p a _ hp, ih, List.filter_cons, hp]
        simp
      · rw [filter_orderedInsert_of_pos r p a _ hp (fun b hrb => by
          cases hq : p b
          · rfl
          · exact absurd (hpr a b hp hq) hrb), ih, List.filter_cons, hp]
        simp

theorem rankEntries_map_fst (l : List ScoredEntry) :
    (rankEntries l).map Prod.fst = l := by
  rw [rankEntries, List.map_map]
  exact List.enum_map_snd l

theorem rankEntries_map_snd (l : List ScoredEntry) :
    (rankEntries l).map Prod.snd = List.range' 1 l.length := by
  rw [rankEntries, List.map_map]
  rw [show (Prod.snd ∘ fun p : ℕ × ScoredEntry => (p.2, p.1 + 1))
      = ((fun i => i + 1) ∘ Prod.fst) from rfl]
  rw [← List.map_map, List.enum_map_fst]
  rw [List.range'_eq_map_range]
  refine List.map_congr_left ?_
  intro a _
  omega

/-- C7: the ranker returns a permutation of the scored entries, sorted by
score descending, with ranks exactly the consecutive integers 1..n, and the
sort is stable: a set of equal-score entries occurs as a subsequence of the
output exactly when it occurs as a subsequence of the input, so pre-sort
relative order of ties is preserved. -/
theorem ranker_spec (l : List ScoredEntry) :
    ((rankEntries (sortByScoreDesc l)).map Prod.fst).Perm l
    ∧ ((rankEntries (sortByScoreDesc l)).map Prod.fst).Sorted
        (fun a b => b.score ≤ a.score)
    ∧ (rankEntries (sortByScoreDesc l)).map Prod.snd = List.range' 1 l.length
    ∧ ∀ sub : List ScoredEntry,
        (∀ a ∈ sub, ∀ b ∈ sub, a.score = b.score) →
        (sub.Sublist l
          ↔ sub.Sublist ((rankEntries (sortByScoreDesc l)).map Prod.fst)) := by
  haveI htot : IsTotal ScoredEntry (fun a b => b.score ≤ a.score) :=
    ⟨fun a b => le_total b.score a.score⟩
  haveI htr : IsTrans ScoredEntry (fun a b => b.score ≤ a.score) :=
    ⟨fun a b c h1 h2 => le_trans h2 h1⟩
  have hfst := rankEntries_map_fst (sortByScoreDesc l)
  have hperm : (sortByScoreDesc l).Perm l := List.perm_insertionSort _ l
  refine ⟨?_, ?_, ?_, ?_⟩
  · rw [hfst]
    exact hperm
  · rw [hfst]
    exact List.sorted_insertionSort _ l
  · rw [rankEntries_map_snd, hperm.length_eq]
  · intro sub hsub
    rw [hfst]
    rcases sub with _ | ⟨x, xs⟩
    · simp
    · set p : ScoredEntry → Bool := fun e => decide (e.score = x.score) with hp
      have hsubf : (x :: xs).filter p = x :: xs :=
        List.filter_eq_self.2 (fun e he => by
          simp only [hp, decide_eq_true_eq]
          exact hsub e he x (List.mem_cons_self x xs))
      have hf := filter_insertionSort (fun a b : ScoredEntry => b.score ≤ a.score)
        p l (fun a b hpa hpb => by
          simp only [hp, decide_eq_true_eq] at hpa hpb
          exact le_of_eq (hpb.trans hpa.symm))
      constructor
      · intro hs
        have h1 : ((x :: xs).filter p).Sublist (l.filter p) := hs.filter p
        rw [hsubf, ← hf] at h1
        exact h1.trans (List.filter_sublist _)
      · intro hs
        have h1 : ((x :: xs).filter p).Sublist
            ((sortByScoreDesc l).filter p) := hs.filter p
        rw [hsubf] at h1
        rw [show (sortByScoreDesc l).filter p
            = (List.insertionSort (fun a b : ScoredEntry => b.score ≤ a.score) l).filter p
            from rfl, hf] at h1
        exact h1.trans (List.filter_sublist _)

/-- Witness for C7: on a concrete two-entry list the assigned ranks are
exactly [1, 2]. -/
theorem ranker_spec_witness :
    (rankEntries (sortByScoreDesc
        [⟨"a", "", "", 1, 0, 0, 5, "t", "c"⟩,
         ⟨"b", "", "", 2, 0, 0, 3, "t", "c"⟩])).map Prod.snd = [1, 2] :=
  (ranker_spec [⟨"a", "", "", 1, 0, 0, 5, "t", "c"⟩,
     ⟨"b", "", "", 2, 0, 0, 3, "t", "c"⟩]).2.2.1.trans (by rfl)

theorem foldl_week_c (l : List Week) :
    l.foldl (fun sum week => sum + week.c) 0 = (l.map Week.c).sum := by
  simpa using foldl_add_eq_sum Week.c l 0

theorem foldl_week_a (l : List Week) :
    l.foldl (fun sum week => sum + week.a) 0 = (l.map Week.a).sum := by
  simpa using foldl_add_eq_sum Week.a l 0

theorem foldl_week_d (l : List Week) :
    l.foldl (fun sum week => sum + week.d) 0 = (l.map Week.d).sum := by
  simpa using foldl_add_eq_sum Week.d l 0

theorem periodEntry_eq_spec (cut : ℚ) (c : Contributor) :
    periodEntry cut c = periodEntrySpec cut c := by
  simp only [periodEntry, periodEntrySpec]
  rw [foldl_week_c, foldl_week_a, foldl_week_d]

theorem activity_pred_eq (x y z : ℕ) :
    (decide (0 < x) || decide (0 < y) || decide (0 < z))
      = !(decide (x = 0) && decide (y = 0) && decide (z = 0)) := by
  rw [Bool.eq_iff_iff]
  simp
  omega

/-- C5: the period cutoffs are 0 for the all-time tab, now − 7 days for
'week' and now − 28 days for 'month' (milliseconds, divided by 1000 into
fractional unix seconds at the filter); the leaderboard rows (ranks aside)
are exactly the per-contributor sums of commits, additions and deletions over
the week buckets with weekStart ≥ cutoff, with every contributor whose three
totals are all zero dropped. -/
theorem periodAggregation_spec (cs : List Contributor) (period : String)
    (now : Int) :
    getPeriodCutoff "all" now = 0
    ∧ getPeriodCutoff "week" now = now - 7 * 86400000
    ∧ getPeriodCutoff "month" now = now - 28 * 86400000
    ∧ ((processContributors cs period now).map Prod.fst).Perm
        ((cs.map (periodEntrySpec (((getPeriodCutoff period now : ℤ) : ℚ) / 1000))).filter
          (fun e => !(decide (e.commits = 0) && decide (e.additions = 0)
            && decide (e.deletions = 0)))) := by
  refine ⟨?_, ?_, ?_, ?_⟩
  · simp only [getPeriodCutoff]
    rw [if_neg (by decide), if_neg (by decide)]
  · simp only [getPeriodCutoff]
    norm_num
  · simp only [getPeriodCutoff]
    rw [if_neg (by decide)]
    norm_num
  have hbody : processContributors cs period now
      = rankEntries (sortByScoreDesc
          ((cs.map (periodEntry (((getPeriodCutoff period now : ℤ) : ℚ) / 1000))).filter
            (fun c => decide (0 < c.commits) || decide (0 < c.additions)
              || decide (0 < c.deletions)))) := rfl
  rw [hbody, rankEntries_map_fst]
  have heq : (cs.map (periodEntry (((getPeriodCutoff period now : ℤ) : ℚ) / 1000))).filter
        (fun c => decide (0 < c.commits) || decide (0 < c.additions)
          || decide (0 < c.deletions))
      = (cs.map (periodEntrySpec (((getPeriodCutoff period now : ℤ) : ℚ) / 1000))).filter
          (fun e => !(decide (e.commits = 0) && decide (e.additions = 0)
            && decide (e.deletions = 0))) := by
    rw [List.map_congr_left
      (fun c _ => periodEntry_eq_spec (((getPeriodCutoff period now : ℤ) : ℚ) / 1000) c)]
    refine List.filter_congr ?_
    intro e _
    exact activity_pred_eq e.commits e.additions e.deletions
  rw [heq] at *
  exact List.perm_insertionSort _ _

/-- C9: the aggregation/scoring/classification/ranking stage leaves its input
contributor records untouched — in the state-passing embedding the post-state
equals the input list, field for field — and its output is exactly the pure
`processContributors` of the inputs, so re-running it on a time-window change
over the cached raw data is sound without re-fetching. -/
theorem processContributors_frame (cs : List Contributor) (period : String)
    (now : Int) :
    (processContributorsSt cs period now).1 = cs
    ∧ ((processContributorsSt cs period now).1).map Contributor.login
        = cs.map Contributor.login
    ∧ ((processContributorsSt cs period now).1).map Contributor.avatar
        = cs.map Contributor.avatar
    ∧ ((processContributorsSt cs period now).1).map Contributor.profileUrl
        = cs.map Contributor.profileUrl
    ∧ ((processContributorsSt cs period now).1).map Contributor.weeks
        = cs.map Contributor.weeks
    ∧ ((processContributorsSt cs period now).1).map Contributor.totalCommits
        = cs.map Contributor.totalCommits
    ∧ (processContributorsSt cs period now).2
        = processContributors cs period now := by
  have h1 : (processContributorsSt cs period now).1 = cs := by
    show (cs.map (periodEntrySt (((getPeriodCutoff period now : ℤ) : ℚ) / 1000))).map
        Prod.fst = cs
    rw [List.map_map]
    exact List.map_id' cs
  have h2 : (processContributorsSt cs period now).2
      = processContributors cs period now := by
    show rankEntries (sortByScoreDesc
        (((cs.map (periodEntrySt (((getPeriodCutoff period now : ℤ) : ℚ) / 1000))).map
            Prod.snd).filter _)) = _
    rw [List.map_map]
    rfl
  exact ⟨h1, by rw [h1], by rw [h1], by rw [h1], by rw [h1], by rw [h1], h2⟩
